import Mathlib

/-!  Shallow embedding of the XEP-Core difficulty and staking engine
(pow.cpp, primitives/block.h, miner.cpp, chainparams.cpp), with the
verification of the specified properties of CheckProofOfWork,
GetNextWorkRequired, CalculateNextWorkRequired,
WeightedTargetExponentialMovingAverage, AverageTargetASERT and
CreateCoinStake. -/

namespace XEP

set_option maxRecDepth 1000000

/-!
Verification of the XEP-Core difficulty-adjustment engine and proof-of-stake
staking loop (src/pow.cpp, src/miner.cpp, src/primitives/block.h) against its
natural-language specification.

The chain of ancestor block indexes is modelled as a Lean list, tip first and
genesis last; the null pointer is the empty list and the pprev link is List.tail.
Machine words are modelled as Nat (heights, timestamps, compact bits) or Int
(signed time differences), with 256-bit / 512-bit wraparound made explicit where
the big-integer classes wrap, and 32-bit wraparound made explicit on the one
signed narrowing that attacker-controlled values can overflow.
-/

/-! ## Compact target codec.

Modelled from the spec: arith_uint256.{h,cpp} is not under src/.  Per spec section
4.1 the compact form is one exponent byte (size in bytes) plus a 3-byte mantissa;
decoding flags a set mantissa sign bit as negative and an exponent that would
shift a nonzero mantissa out of 256 bits as overflow; the truncating encoder drops
low bytes and renormalises a mantissa whose sign bit is set; the rounding encoder
rounds the truncated mantissa based on the discarded low byte. -/

/-- Bit length (position of the highest set bit plus one, the bits() method of
the big-integer classes), computed with an explicit fuel bound so that the kernel
can evaluate it; the value is halved each step, so fuel equal to the value
suffices.  Agrees with Nat.size (proved below). -/
def bitsLenGo : Nat → Nat → Nat
  | _, 0 => 0
  | 0, _ => 0
  | fuel + 1, x => bitsLenGo fuel (x / 2) + 1

/-- Bit length of a Nat; equals Nat.size. -/
def bitsLen (x : Nat) : Nat := bitsLenGo x x

/-- Value decoded by arith_uint256::SetCompactBase256 (the 256-bit shift wraps). -/
def setCompactBase256 (c : Nat) : Nat :=
  let nSize := c >>> 24
  let nWord := c &&& 0x007fffff
  if nSize ≤ 3 then nWord >>> (8 * (3 - nSize))
  else (nWord <<< (8 * (nSize - 3))) % 2 ^ 256

/-- Negative flag reported by SetCompactBase256. -/
def setCompactBase256Negative (c : Nat) : Bool :=
  c &&& 0x007fffff ≠ 0 && c &&& 0x00800000 ≠ 0

/-- Overflow flag reported by SetCompactBase256. -/
def setCompactBase256Overflow (c : Nat) : Bool :=
  let nSize := c >>> 24
  let nWord := c &&& 0x007fffff
  nWord ≠ 0 && (nSize > 34 || (nWord > 0xff && nSize > 33) || (nWord > 0xffff && nSize > 32))

/-- Truncating compact encoder (arith_uint256::GetCompactBase256). -/
def getCompactBase256 (x : Nat) : Nat :=
  let nSize := (bitsLen x + 7) / 8
  let nCompact := if nSize ≤ 3 then x <<< (8 * (3 - nSize)) else x >>> (8 * (nSize - 3))
  if nCompact &&& 0x00800000 ≠ 0 then (nCompact >>> 8) ||| ((nSize + 1) <<< 24)
  else nCompact ||| (nSize <<< 24)

/-- Rounding compact encoder (arith_uint256::GetCompactRoundedBase256): the
3-byte mantissa is rounded up when the top discarded byte is at least 0x80, then
renormalised as in the truncating encoder. -/
def getCompactRoundedBase256 (x : Nat) : Nat :=
  let nSize := (bitsLen x + 7) / 8
  if nSize ≤ 3 then getCompactBase256 x
  else
    let mantissa := x >>> (8 * (nSize - 3))
    let roundByte := (x >>> (8 * (nSize - 4))) &&& 0xff
    let m := if 0x80 ≤ roundByte then mantissa + 1 else mantissa
    if 0x00800000 ≤ m then (m >>> 8) ||| ((nSize + 1) <<< 24) else m ||| (nSize <<< 24)

/-! ## Block headers, algorithm tags and the ancestor-chain view. -/

/-- Header fields used by the difficulty engine (primitives/block.h); a chain
index entry carries the same consensus fields. -/
structure Block where
  nVersion : Nat
  nTime : Nat
  nBits : Nat
  nNonce : Nat
deriving DecidableEq, Repr

def VERSION_ALGO_POS : Nat := 1 <<< 29

def VERSION_ALGO_POW_SHA256 : Nat := 2 <<< 29

def VERSION_ALGO_MASK : Nat := 7 <<< 29

def FIRST_FORK_VERSION : Nat := 5

/-- CBlockHeader::GetAlgoType: ALGO_POS is 0, ALGO_POW_SHA256 is 1, unknown is -1. -/
def getAlgoType (version : Nat) : Int :=
  if version &&& VERSION_ALGO_MASK = VERSION_ALGO_POS then 0
  else if version &&& VERSION_ALGO_MASK = VERSION_ALGO_POW_SHA256 then 1
  else -1

/-- CBlockHeader::IsProofOfStake (nNonce is 0 on pre-fork proof-of-stake blocks). -/
def isProofOfStake (b : Block) : Bool :=
  b.nVersion &&& VERSION_ALGO_MASK = VERSION_ALGO_POS
    || (b.nVersion < FIRST_FORK_VERSION && b.nNonce = 0)

/-- Ancestor chain view: tip first, genesis last; the empty list is the null
pointer and List.tail is the pprev link. -/
abbrev ChainIdx := List Block

/-- Dereference of a chain index entry (only consulted on non-null indexes). -/
def idxBlock : ChainIdx → Block
  | [] => ⟨0, 0, 0, 0⟩
  | b :: _ => b

def idxBits (c : ChainIdx) : Nat := (idxBlock c).nBits

def idxVersion (c : ChainIdx) : Nat := (idxBlock c).nVersion

/-- CBlockIndex::GetBlockTime (nTime is an unsigned 32-bit word, so nonnegative). -/
def blockTime (c : ChainIdx) : Nat := (idxBlock c).nTime

/-- Height of the entry: number of ancestors below it (genesis at height 0). -/
def idxHeight (c : ChainIdx) : Int := (c.length : Int) - 1

/-- Modelled from the spec: chain.h (CBlockIndex) is not under src/.  The spec
describes a running per-algorithm block count nHeightPoS/nHeightPoW per chain
index entry; we model nHeightPoS as the number of proof-of-stake-tagged blocks
strictly above the genesis up to and including the entry, calibrated so that
nBlocksPassed equals nHeightPoS plus one, which counts the ASERT reference block
(the genesis) as the first block of the per-algorithm schedule. -/
def nHeightPoS (c : ChainIdx) : Nat :=
  c.dropLast.countP (fun b => getAlgoType b.nVersion == 0)

/-- Running proof-of-work block count; see nHeightPoS. -/
def nHeightPoW (c : ChainIdx) : Nat :=
  c.dropLast.countP (fun b => getAlgoType b.nVersion == 1)

/-- Network parameters consumed from Consensus::Params (chainparams.cpp gives the
per-network numeric values). -/
structure Params where
  powLimitPoS : Nat
  powLimitPoW : Nat
  nPowTargetSpacing : Nat
  nPowTargetTimespan : Nat
  nStakeTimestampMask : Nat
  fPowAllowMinDifficultyBlocks : Bool
  fPowNoRetargeting : Bool
  nStakeMinAge : Nat
  nStakeMinDepth : Int
deriving Repr

/-- Indexing of the powLimit array by algorithm tag (only ever applied to 0 or 1). -/
def Params.powLimitAt (P : Params) (algo : Int) : Nat :=
  if algo = 0 then P.powLimitPoS else P.powLimitPoW

/-- GetLastBlockIndex (pow.cpp): walk back while the proof-of-stake flag differs
and a predecessor exists. -/
def getLastBlockIndex (c : ChainIdx) (fProofOfStake : Bool) : ChainIdx :=
  match c with
  | [] => []
  | b :: rest =>
    if isProofOfStake b ≠ fProofOfStake ∧ rest ≠ [] then getLastBlockIndex rest fProofOfStake
    else b :: rest

/-- GetLastBlockIndexForAlgo (pow.cpp): walk back while the algorithm tag differs
and a predecessor exists. -/
def getLastBlockIndexForAlgo (c : ChainIdx) (algo : Int) : ChainIdx :=
  match c with
  | [] => []
  | b :: rest =>
    if getAlgoType b.nVersion ≠ algo ∧ rest ≠ [] then getLastBlockIndexForAlgo rest algo
    else b :: rest

/-- Loop body of GetASERTReferenceBlockForAlgo, with an explicit fuel bound; each
iteration moves to a strict suffix, so fuel equal to the list length is enough. -/
def asertRefWalkGo (nASERTStartHeight : Int) (algo : Int) : Nat → ChainIdx → ChainIdx
  | 0, c => c
  | fuel + 1, c =>
    if nASERTStartHeight ≤ idxHeight c then
      let p := getLastBlockIndexForAlgo c.tail algo
      if p = [] then c else asertRefWalkGo nASERTStartHeight algo fuel p
    else c

/-- GetASERTReferenceBlockForAlgo (pow.cpp): walk back to the reference block of
the given algorithm at or below the ASERT start height. -/
def getASERTReferenceBlockForAlgo (c : ChainIdx) (nASERTStartHeight : Int) (algo : Int) :
    ChainIdx :=
  if c = [] then [] else asertRefWalkGo nASERTStartHeight algo c.length c

/-! ## Shared big-integer helpers (arith_uint256 / arith_uint512 semantics). -/

def TWO256 : Nat := 2 ^ 256

def TWO512 : Nat := 2 ^ 512

/-- arith_uint512 multiplication wraps modulo 2^512. -/
def mul512 (a b : Nat) : Nat := a * b % TWO512

/-- arith_uint512 left shift drops bits beyond 512. -/
def shl512 (a k : Nat) : Nat := a <<< k % TWO512

/-- arith_uint512::trim256 keeps the low 256 bits. -/
def trim256 (a : Nat) : Nat := a % TWO256

/-- Wrap of a signed 64-bit value narrowed to a signed 32-bit int. -/
def wrap32 (x : Int) : Int := (x + 2 ^ 31) % 2 ^ 32 - 2 ^ 31

/-! ## Legacy linear retarget. -/

/-- CalculateNextWorkRequired (pow.cpp lines 145-168): clamp the measured
timespan to [span/4, span*4], scale the previous target linearly, clamp to the
SHA256 ceiling; terminal on fPowNoRetargeting. -/
def calculateNextWorkRequired (pindexLast : ChainIdx) (nFirstBlockTime : Int) (P : Params) :
    Nat :=
  if P.fPowNoRetargeting then idxBits pindexLast
  else
    let nActualTimespan : Int := (blockTime pindexLast : Int) - nFirstBlockTime
    let lo : Int := (P.nPowTargetTimespan / 4 : Nat)
    let hi : Int := (P.nPowTargetTimespan * 4 : Nat)
    let clamped : Int := if nActualTimespan < lo then lo else if hi < nActualTimespan then hi else nActualTimespan
    let bnPowLimit := P.powLimitPoW
    let bnNew := setCompactBase256 (idxBits pindexLast) * clamped.toNat % TWO256
    let bnNew := bnNew / P.nPowTargetTimespan
    getCompactBase256 (if bnPowLimit < bnNew then bnPowLimit else bnNew)

/-! ## Weighted target exponential moving average. -/

/-- WeightedTargetExponentialMovingAverage (pow.cpp lines 170-217). -/
def weightedTargetExponentialMovingAverage (pindexLast : ChainIdx) (pblock : Block)
    (P : Params) : Nat :=
  let algo := getAlgoType pblock.nVersion
  let fAlgoMissing := algo = -1
  let fProofOfStake := isProofOfStake pblock
  let bnPowLimit :=
    if fAlgoMissing then (if fProofOfStake then P.powLimitPoS else P.powLimitPoW)
    else P.powLimitAt algo
  let nProofOfWorkLimit := getCompactBase256 bnPowLimit
  if pindexLast = [] then nProofOfWorkLimit
  else
    let pindexPrev :=
      if fAlgoMissing then getLastBlockIndex pindexLast fProofOfStake
      else getLastBlockIndexForAlgo pindexLast algo
    if pindexPrev.tail = [] then nProofOfWorkLimit
    else
      let pindexPrevPrev :=
        if fAlgoMissing then getLastBlockIndex pindexPrev.tail fProofOfStake
        else getLastBlockIndexForAlgo pindexPrev.tail algo
      if pindexPrevPrev.tail = [] then nProofOfWorkLimit
      else
        let nActualSpacing : Int := wrap32 ((blockTime pindexPrev : Int) - (blockTime pindexPrevPrev : Int))
        let bnNew := setCompactBase256 (idxBits pindexPrev)
        let nTargetSpacing : Nat := if fProofOfStake then P.nPowTargetSpacing else 10 * 60
        let nTargetTimespan : Nat := P.nPowTargetTimespan
        let nInterval : Nat := nTargetTimespan / (nTargetSpacing * 2)
        let numerator : Nat :=
          (max (((nInterval : Int) - 1) * (nTargetSpacing : Int) + nActualSpacing) 1).toNat
        let denominator : Nat := nInterval * nTargetSpacing
        let bnNew512 := mul512 bnNew numerator / denominator
        let bnNew := trim256 bnNew512
        if bnPowLimit < bnNew512 ∨ bnNew = 0 then nProofOfWorkLimit
        else getCompactRoundedBase256 bnNew

/-! ## ASERT: absolutely scheduled exponentially rising target. -/

/-- Selection of the previous block of the candidate's algorithm (the unknown-tag
fallback walks by the proof-of-stake flag instead). -/
def selPrev (fAlgoMissing fProofOfStake : Bool) (algo : Int) (c : ChainIdx) : ChainIdx :=
  if fAlgoMissing then getLastBlockIndex c fProofOfStake else getLastBlockIndexForAlgo c algo

/-- ASERT reference block (pow.cpp lines 255-260): the per-algorithm reference
walk from the previous block, with the unknown tag resolved by the proof-of-stake
flag.  The source memoises the two walks in a function-local static array whose
entries never change for a fixed chain; we compute the selected entry directly. -/
def asertReferenceBlock (fAlgoMissing fProofOfStake : Bool) (algo : Int)
    (pindexPrev : ChainIdx) : ChainIdx :=
  getASERTReferenceBlockForAlgo pindexPrev 0
    (if fAlgoMissing then (if fProofOfStake then 0 else 1) else algo)

/-- Raw ASERT reference timestamp (pow.cpp line 264): the reference block's
parent's time, or its own time minus the target spacing when it is the genesis. -/
def asertRefTimestampRaw (pindexReferenceBlock pindexReferenceBlockPrev : ChainIdx)
    (nTargetSpacing : Nat) : Int :=
  if pindexReferenceBlockPrev ≠ [] then (blockTime pindexReferenceBlockPrev : Int)
  else (blockTime pindexReferenceBlock : Int) - nTargetSpacing

/-- Timestamp slot loop (pow.cpp lines 267-270): increment until the masked bits
vanish.  Terminates because the next multiple of 2^(mask+1) satisfies the test. -/
def slotUpInt (mask : Nat) (t : Int) : Int :=
  if Int.land t mask = 0 then t else slotUpInt mask (t + 1)
termination_by (if Int.land t mask = 0 then 0 else 2 ^ (mask + 1) - (t % (2 ^ (mask + 1) : Nat)).toNat)
decreasing_by
  rename_i hland
  rw [if_neg hland]
  have hm : mask < 2 ^ (mask + 1) :=
    lt_of_lt_of_le (Nat.lt_two_pow mask) (Nat.pow_le_pow_right (by norm_num) (Nat.le_succ mask))
  set L := mask + 1
  have hMpos : (0 : Int) < ((2 ^ L : Nat) : Int) := by positivity
  have hland_emod : ∀ u : Int, u % ((2 ^ L : Nat) : Int) = 0 → Int.land u ↑mask = 0 := by
    intro u hu
    have hdvd : ((2 ^ L : Nat) : Int) ∣ u := Int.dvd_of_emod_eq_zero hu
    cases u with
    | ofNat n =>
      have hn : 2 ^ L ∣ n := by
        rw [Int.ofNat_eq_natCast] at hdvd
        exact_mod_cast hdvd
      obtain ⟨k, rfl⟩ := hn
      have hland0 : 2 ^ L * k &&& mask = 0 := by
        apply Nat.eq_of_testBit_eq
        intro i
        rw [Nat.testBit_land, Nat.zero_testBit]
        rcases lt_or_le i L with hi | hi
        · have h1 : (2 ^ L * k).testBit i = (2 ^ L * k % 2 ^ L).testBit i := by
            rw [Nat.testBit_mod_two_pow, decide_eq_true hi, Bool.true_and]
          rw [h1, Nat.mul_mod_right, Nat.zero_testBit, Bool.false_and]
        · rw [Nat.testBit_eq_false_of_lt
            (lt_of_lt_of_le hm (Nat.pow_le_pow_right (by norm_num) hi)), Bool.and_false]
      calc Int.land (Int.ofNat (2 ^ L * k)) ↑mask = Int.ofNat (2 ^ L * k &&& mask) := rfl
        _ = 0 := by rw [hland0]; rfl
    | negSucc n =>
      have hn : 2 ^ L ∣ n + 1 := by
        have h1 : ((2 ^ L : Nat) : Int) ∣ ((n + 1 : Nat) : Int) := by
          have h2 : ((n + 1 : Nat) : Int) = -Int.negSucc n := by
            push_cast [Int.negSucc_eq]
            ring
          rw [h2]
          exact dvd_neg.mpr hdvd
        exact_mod_cast h1
      have hres : Nat.ldiff mask n = 0 := by
        apply Nat.eq_of_testBit_eq
        intro i
        rw [Nat.testBit_ldiff, Nat.zero_testBit]
        rcases lt_or_le i L with hi | hi
        · have hone : 0 < 2 ^ L := Nat.pos_pow_of_pos L (by norm_num)
          obtain ⟨k, hk⟩ := hn
          have hk1 : 1 ≤ k := by
            rcases Nat.eq_zero_or_pos k with h0 | h0
            · rw [h0, Nat.mul_zero] at hk
              omega
            · exact h0
          have hn' : n = 2 ^ L * (k - 1) + (2 ^ L - 1) := by
            have h4 : k = (k - 1) + 1 := by omega
            have h3 : 2 ^ L * k = 2 ^ L * (k - 1) + 2 ^ L := by
              conv_lhs => rw [h4]
              rw [Nat.mul_succ]
            omega
          have hmod : n % 2 ^ L = 2 ^ L - 1 := by
            rw [hn', Nat.mul_add_mod]
            exact Nat.mod_eq_of_lt (by omega)
          have hbit : n.testBit i = true := by
            have h1 : n.testBit i = (n % 2 ^ L).testBit i := by
              rw [Nat.testBit_mod_two_pow, decide_eq_true hi, Bool.true_and]
            rw [h1, hmod, Nat.testBit_two_pow_sub_one, decide_eq_true hi]
          rw [hbit, Bool.not_true, Bool.and_false]
        · rw [Nat.testBit_eq_false_of_lt
            (lt_of_lt_of_le hm (Nat.pow_le_pow_right (by norm_num) hi)), Bool.false_and]
      calc Int.land (Int.negSucc n) ↑mask = Int.ofNat (Nat.ldiff mask n) := rfl
        _ = 0 := by rw [hres]; rfl
  have hr0 : 0 ≤ t % ((2 ^ L : Nat) : Int) := Int.emod_nonneg t (by positivity)
  have hrlt : t % ((2 ^ L : Nat) : Int) < ((2 ^ L : Nat) : Int) := Int.emod_lt_of_pos t hMpos
  have hM2 : (1 : Int) < ((2 ^ L : Nat) : Int) := by
    have h2 : (2 : Nat) ≤ 2 ^ L := by
      calc (2 : Nat) = 2 ^ 1 := rfl
        _ ≤ 2 ^ L := Nat.pow_le_pow_right (by norm_num) (by omega)
    exact_mod_cast h2
  have hone1 : (1 : Int) % ((2 ^ L : Nat) : Int) = 1 := Int.emod_eq_of_lt (by norm_num) hM2
  have hstep : (t + 1) % ((2 ^ L : Nat) : Int)
      = (t % ((2 ^ L : Nat) : Int) + 1) % ((2 ^ L : Nat) : Int) := by
    rw [Int.add_emod, hone1]
  rcases eq_or_ne (Int.land (t + 1) ↑mask) 0 with hz | hz
  · rw [if_pos hz]
    omega
  · rw [if_neg hz]
    rcases lt_or_ge (t % ((2 ^ L : Nat) : Int) + 1) ((2 ^ L : Nat) : Int) with hlt | hge
    · have h2 : (t + 1) % ((2 ^ L : Nat) : Int) = t % ((2 ^ L : Nat) : Int) + 1 := by
        rw [hstep]
        exact Int.emod_eq_of_lt (by omega) hlt
      rw [h2]
      omega
    · have hrM : t % ((2 ^ L : Nat) : Int) + 1 = ((2 ^ L : Nat) : Int) := by omega
      have h0 : (t + 1) % ((2 ^ L : Nat) : Int) = 0 := by
        rw [hstep, hrM, Int.emod_self]
      exact absurd (hland_emod _ h0) hz

/-- Rounded reference timestamp (pow.cpp lines 266-270): proof-of-stake rounds
the raw reference timestamp up to the next stake time-slot boundary. -/
def asertRefTimestamp (fProofOfStake : Bool) (mask : Nat) (raw : Int) : Int :=
  if fProofOfStake then slotUpInt mask raw else raw

/-- Iterated step of the skip loop preceding the target averaging (pow.cpp lines
291-293). -/
def iterStep (step : ChainIdx → ChainIdx) : Nat → ChainIdx → ChainIdx
  | 0, c => c
  | k + 1, c => iterStep step k (step c)

/-- Body of the target-averaging loop (pow.cpp lines 297-309), with an explicit
fuel bound; every iteration moves to a strict suffix so fuel equal to the list
length plus one is enough.  Min-difficulty targets do not count against the
budget (the i-- in the source); the loop stops when the walk runs out of blocks,
after adding the current contribution. -/
def avgLoopGo (step : ChainIdx → ChainIdx) (minDiffBits : Nat) (fMinDiff : Bool) (N : Nat) :
    Nat → ChainIdx → Nat → Nat → Nat
  | 0, _, _, acc => acc
  | _ + 1, [], _, acc => acc
  | fuel + 1, b :: rest, remaining, acc =>
    if remaining = 0 then acc
    else
      let contributes := b.nBits ≠ minDiffBits ∨ fMinDiff = false
      let acc' := if contributes then acc + setCompactBase256 b.nBits / N else acc
      let rem' := if contributes then remaining - 1 else remaining
      let c' := step (b :: rest)
      if c' = [] then acc' else avgLoopGo step minDiffBits fMinDiff N fuel c' rem' acc'

/-- Recomputation of the rolling average of the past window of block targets
(pow.cpp lines 286-311): skip the partial window, then average a full window,
skipping min-difficulty targets. -/
def asertRecomputeAvg (fAlgoMissing fProofOfStake : Bool) (algo : Int)
    (nProofOfWorkLimit : Nat) (fMinDiff : Bool) (N : Nat) (nHeightDiff : Nat)
    (pindexPrev : ChainIdx) : Nat :=
  let step := fun p => selPrev fAlgoMissing fProofOfStake algo p.tail
  let nBlocksToSkip := nHeightDiff % N
  let start := iterStep step nBlocksToSkip pindexPrev
  avgLoopGo step (nProofOfWorkLimit - 1) fMinDiff N (start.length + 1) start N 0

/-- Exponential tail of AverageTargetASERT (pow.cpp lines 339-404): integer shift
for the whole exponent, cubic rational approximation for the fractional part,
512-bit evaluation, ceiling and zero clamps.  The schedule product
nTargetSpacing * nHeightDiff multiplies two uint32_t values and wraps modulo
2^32 before the int64 subtraction (pow.cpp line 340); Int division and the
nonnegative remainder match the C++ truncated int64 semantics. -/
def asertTail (refBlockTarget : Nat) (nTimeDiff : Int) (nHeightDiff : Nat)
    (nTargetSpacing : Nat) (divisor : Nat) (bnPowLimit nProofOfWorkLimit : Nat) : Nat :=
  let dividend : Int := nTimeDiff - ((nTargetSpacing * nHeightDiff % 2 ^ 32 : Nat) : Int)
  let fPositive := 0 ≤ dividend
  let exponent : Int := Int.tdiv dividend (divisor : Int)
  let remainder : Nat := ((if fPositive then dividend else -dividend) % (divisor : Int)).toNat
  let poly : Nat := 4 * remainder * remainder * remainder
    + 11 * remainder * remainder * divisor
    + 35 * remainder * divisor * divisor
    + 50 * divisor * divisor * divisor
  let cube : Nat := 50 * divisor * divisor * divisor
  let numerator0 : Nat := if fPositive ∧ 0 < exponent then shl512 1 exponent.toNat else 1
  let denominator0 : Nat := if ¬fPositive ∧ exponent < 0 then shl512 1 (-exponent).toNat else 1
  let numerator : Nat :=
    if remainder ≠ 0 then (if fPositive then mul512 numerator0 poly else mul512 numerator0 cube)
    else numerator0
  let denominator : Nat :=
    if remainder ≠ 0 then (if fPositive then mul512 denominator0 cube else mul512 denominator0 poly)
    else denominator0
  let bnNew512 := mul512 refBlockTarget numerator / denominator
  let bnNew := trim256 bnNew512
  if bnPowLimit < bnNew512 ∨ bnNew = 0 then nProofOfWorkLimit
  else getCompactRoundedBase256 bnNew

/-- Process-wide rolling-average target cache (pow.cpp lines 281-283): the cached
average, the cached window index and the cached algorithm. -/
structure TargetCache where
  refBlockTargetCache : Nat
  nTargetCacheHeight : Int
  nTargetCacheAlgo : Int
deriving DecidableEq, Repr

/-- Initial state of the target cache (height sentinel -2, algo ALGO_COUNT). -/
def initTargetCache : TargetCache := ⟨0, -2, 2⟩

/-- Guard of the averaging branch (pow.cpp line 285). -/
def asertAvgGuard (N nHeight nHeightDiff : Nat) : Prop :=
  0 < N ∧ 0 + N ≤ nHeight ∧ N ≤ nHeightDiff

instance (N nHeight nHeightDiff : Nat) : Decidable (asertAvgGuard N nHeight nHeightDiff) := by
  unfold asertAvgGuard
  infer_instance

/-- Reference-target selection of AverageTargetASERT without the cache (the
fUseCache = false behaviour of pow.cpp lines 276-336): always recompute. -/
def asertRefTargetFree (fAlgoMissing fProofOfStake : Bool) (algo : Int)
    (nProofOfWorkLimit : Nat) (fMinDiff : Bool) (N nHeight nHeightDiff : Nat)
    (pindexPrev pindexReferenceBlock : ChainIdx) : Nat :=
  if asertAvgGuard N nHeight nHeightDiff then
    asertRecomputeAvg fAlgoMissing fProofOfStake algo nProofOfWorkLimit fMinDiff N
      nHeightDiff pindexPrev
  else setCompactBase256 (idxBits pindexReferenceBlock)

/-- Reference-target selection of AverageTargetASERT with the cache (pow.cpp
lines 276-336, fUseCache = true): read the cached average when the window index
and algorithm match and the cached value is nonzero, recompute and store it
otherwise; outside the averaging regime cache the reference block's target under
the height sentinel -1, bypassing the cache for the unknown algorithm tag. -/
def asertRefTargetCached (fAlgoMissing fProofOfStake : Bool) (algo : Int)
    (nProofOfWorkLimit : Nat) (fMinDiff : Bool) (N nHeight nHeightDiff : Nat)
    (pindexPrev pindexReferenceBlock : ChainIdx) (s : TargetCache) : Nat × TargetCache :=
  if asertAvgGuard N nHeight nHeightDiff then
    if s.nTargetCacheHeight ≠ ((nHeightDiff / N : Nat) : Int) ∨ s.nTargetCacheAlgo ≠ algo
        ∨ s.refBlockTargetCache = 0 ∨ fAlgoMissing then
      let v := asertRecomputeAvg fAlgoMissing fProofOfStake algo nProofOfWorkLimit fMinDiff N
        nHeightDiff pindexPrev
      (v, ⟨v, ((nHeightDiff / N : Nat) : Int), algo⟩)
    else (s.refBlockTargetCache, s)
  else
    if ¬fAlgoMissing then
      if s.nTargetCacheHeight ≠ -1 ∨ s.nTargetCacheAlgo ≠ algo ∨ s.refBlockTargetCache = 0 then
        let v := setCompactBase256 (idxBits pindexReferenceBlock)
        (v, ⟨v, -1, algo⟩)
      else (s.refBlockTargetCache, s)
    else (setCompactBase256 (idxBits pindexReferenceBlock), s)

/-- AverageTargetASERT (pow.cpp lines 219-405) with the cache replaced by a fresh
recomputation; by the cache-transparency theorem this is the value the cached
implementation returns in every reachable cache state. -/
def averageTargetASERT (pindexLast : ChainIdx) (pblock : Block) (P : Params) : Nat :=
  let algo := getAlgoType pblock.nVersion
  let fAlgoMissing := algo = -1
  let fProofOfStake := isProofOfStake pblock
  let bnPowLimit :=
    if fAlgoMissing then (if fProofOfStake then P.powLimitPoS else P.powLimitPoW)
    else P.powLimitAt algo
  let nProofOfWorkLimit := getCompactBase256 bnPowLimit
  let nTargetSpacing : Nat := if fProofOfStake then P.nPowTargetSpacing else 10 * 60
  if pindexLast = [] then nProofOfWorkLimit
  else
    let pindexPrev := selPrev fAlgoMissing fProofOfStake algo pindexLast
    if pindexPrev.tail = [] then nProofOfWorkLimit
    else
      let pindexPrevPrev := selPrev fAlgoMissing fProofOfStake algo pindexPrev.tail
      if pindexPrevPrev.tail = [] then nProofOfWorkLimit
      else
        let N := 4 * P.nPowTargetTimespan / nTargetSpacing
        let nHeight := pindexLast.length
        if (nHeight : Int) < 0 then weightedTargetExponentialMovingAverage pindexLast pblock P
        else
          let nBlocksPassed := (if fProofOfStake then nHeightPoS pindexLast else nHeightPoW pindexLast) + 1
          let pindexReferenceBlock := asertReferenceBlock fAlgoMissing fProofOfStake algo pindexPrev
          let pindexReferenceBlockPrev := selPrev fAlgoMissing fProofOfStake algo pindexReferenceBlock.tail
          let raw := asertRefTimestampRaw pindexReferenceBlock pindexReferenceBlockPrev nTargetSpacing
          let refBlockTimestamp := asertRefTimestamp fProofOfStake P.nStakeTimestampMask raw
          let nTimeDiff := (blockTime pindexPrev : Int) - refBlockTimestamp
          let nHeightDiff := nBlocksPassed
          let refBlockTarget := asertRefTargetFree fAlgoMissing fProofOfStake algo
            nProofOfWorkLimit P.fPowAllowMinDifficultyBlocks N nHeight nHeightDiff
            pindexPrev pindexReferenceBlock
          asertTail refBlockTarget nTimeDiff nHeightDiff nTargetSpacing P.nPowTargetTimespan
            bnPowLimit nProofOfWorkLimit

/-- AverageTargetASERT with the process-wide target cache threaded explicitly:
the returned pair is the computed compact target and the cache state after the
call. -/
def averageTargetASERTCached (pindexLast : ChainIdx) (pblock : Block) (P : Params)
    (s : TargetCache) : Nat × TargetCache :=
  let algo := getAlgoType pblock.nVersion
  let fAlgoMissing := algo = -1
  let fProofOfStake := isProofOfStake pblock
  let bnPowLimit :=
    if fAlgoMissing then (if fProofOfStake then P.powLimitPoS else P.powLimitPoW)
    else P.powLimitAt algo
  let nProofOfWorkLimit := getCompactBase256 bnPowLimit
  let nTargetSpacing : Nat := if fProofOfStake then P.nPowTargetSpacing else 10 * 60
  if pindexLast = [] then (nProofOfWorkLimit, s)
  else
    let pindexPrev := selPrev fAlgoMissing fProofOfStake algo pindexLast
    if pindexPrev.tail = [] then (nProofOfWorkLimit, s)
    else
      let pindexPrevPrev := selPrev fAlgoMissing fProofOfStake algo pindexPrev.tail
      if pindexPrevPrev.tail = [] then (nProofOfWorkLimit, s)
      else
        let N := 4 * P.nPowTargetTimespan / nTargetSpacing
        let nHeight := pindexLast.length
        if (nHeight : Int) < 0 then (weightedTargetExponentialMovingAverage pindexLast pblock P, s)
        else
          let nBlocksPassed := (if fProofOfStake then nHeightPoS pindexLast else nHeightPoW pindexLast) + 1
          let pindexReferenceBlock := asertReferenceBlock fAlgoMissing fProofOfStake algo pindexPrev
          let pindexReferenceBlockPrev := selPrev fAlgoMissing fProofOfStake algo pindexReferenceBlock.tail
          let raw := asertRefTimestampRaw pindexReferenceBlock pindexReferenceBlockPrev nTargetSpacing
          let refBlockTimestamp := asertRefTimestamp fProofOfStake P.nStakeTimestampMask raw
          let nTimeDiff := (blockTime pindexPrev : Int) - refBlockTimestamp
          let nHeightDiff := nBlocksPassed
          let rt := asertRefTargetCached fAlgoMissing fProofOfStake algo
            nProofOfWorkLimit P.fPowAllowMinDifficultyBlocks N nHeight nHeightDiff
            pindexPrev pindexReferenceBlock s
          (asertTail rt.1 nTimeDiff nHeightDiff nTargetSpacing P.nPowTargetTimespan
            bnPowLimit nProofOfWorkLimit, rt.2)

/-- Cache state after a sequence of AverageTargetASERT calls on (suffixes of) a
fixed chain, starting from the process-start cache state; a call is a pair of a
drop count selecting the previous-block suffix and a candidate header. -/
def runTargetCache (P : Params) (ch : ChainIdx) (calls : List (Nat × Block)) : TargetCache :=
  calls.foldl (fun s q => (averageTargetASERTCached (ch.drop q.1) q.2 P s).2) initTargetCache

/-! ## Top-level next-work dispatch. -/

/-- Walk of the min-difficulty special rule (pow.cpp lines 92-94): step back over
min-difficulty blocks and blocks of a different algorithm. -/
def minDiffWalk (c : ChainIdx) (algo : Int) (minBits : Nat) : ChainIdx :=
  match c with
  | [] => []
  | b :: rest =>
    if rest ≠ [] ∧ (b.nBits = minBits ∨ getAlgoType b.nVersion ≠ algo) then
      minDiffWalk rest algo minBits
    else b :: rest

/-- GetNextWorkRequired (pow.cpp lines 76-107). -/
def getNextWorkRequired (pindexLast : ChainIdx) (pblock : Block) (P : Params) : Nat :=
  let algo := getAlgoType pblock.nVersion
  let nProofOfWorkLimit := getCompactBase256 (P.powLimitAt (if algo = -1 then 1 else algo))
  if pindexLast = [] ∨ P.fPowNoRetargeting then nProofOfWorkLimit
  else
    let fallback := averageTargetASERT pindexLast pblock P
    if P.fPowAllowMinDifficultyBlocks ∧ algo ≠ -1 then
      let pindexPrev := getLastBlockIndexForAlgo pindexLast algo
      if 10 < idxHeight pindexPrev ∧ (blockTime pindexPrev : Int) + 30 * 60 < (pblock.nTime : Int) then
        nProofOfWorkLimit - 1
      else if pindexPrev.tail ≠ [] ∧ idxBits pindexPrev = nProofOfWorkLimit - 1 then
        let pindex := minDiffWalk pindexPrev algo (nProofOfWorkLimit - 1)
        let pprev2 := getLastBlockIndexForAlgo pindex.tail algo
        if pprev2 ≠ [] ∧ 10 < idxHeight pprev2 then
          if idxBits pprev2 ≠ nProofOfWorkLimit - 1 then idxBits pprev2 else idxBits pindex
        else fallback
      else fallback
    else fallback

/-! ## Proof validation. -/

/-- CheckProofOfWork (pow.cpp lines 407-424): range checks on the decoded target
and the algorithm tag, then the hash comparison.  The short-circuit of the C++
condition means the powLimit array is only indexed once the tag is known valid. -/
def checkProofOfWork (hash : Nat) (nBits : Nat) (algo : Int) (P : Params) : Bool :=
  let bnTarget := setCompactBase256 nBits
  if setCompactBase256Negative nBits || bnTarget = 0 || setCompactBase256Overflow nBits
      || algo < -1 || algo = 0 || 2 ≤ algo
      || P.powLimitAt (if algo = -1 then 1 else algo) < bnTarget then false
  else if bnTarget < hash then false
  else true

/-! ## CreateCoinStake (miner.cpp lines 540-711).

The wallet, script solver, UTXO view and kernel check are external collaborators
of the staking loop; they enter the model as abstract functions in a stake
environment, so that the loop's control flow (skip / break / hard error /
success) is the object of verification.  The kernel-hash check is a separate
function argument so that non-invocation on skipped candidates is expressible. -/

/-- Timestamp mask loop of CreateCoinStake (miner.cpp lines 547-548): advance the
candidate block time to the next stake time-slot boundary. -/
def slotUpNat (mask : Nat) (t : Nat) : Nat :=
  if t &&& mask = 0 then t else slotUpNat mask (t + 1)
termination_by (if t &&& mask = 0 then 0 else 2 ^ (mask + 1) - t % 2 ^ (mask + 1))
decreasing_by
  rename_i hland
  rw [if_neg hland]
  have hm : mask < 2 ^ (mask + 1) :=
    lt_of_lt_of_le (Nat.lt_two_pow mask) (Nat.pow_le_pow_right (by norm_num) (Nat.le_succ mask))
  set L := mask + 1
  have hland_mod : ∀ u : Nat, u % 2 ^ L = 0 → u &&& mask = 0 := by
    intro u hu
    apply Nat.eq_of_testBit_eq
    intro i
    rw [Nat.testBit_land, Nat.zero_testBit]
    rcases lt_or_le i L with hi | hi
    · have h1 : u.testBit i = (u % 2 ^ L).testBit i := by
        rw [Nat.testBit_mod_two_pow, decide_eq_true hi, Bool.true_and]
      rw [h1, hu, Nat.zero_testBit, Bool.false_and]
    · rw [Nat.testBit_eq_false_of_lt
        (lt_of_lt_of_le hm (Nat.pow_le_pow_right (by norm_num) hi)), Bool.and_false]
  have hrlt : t % 2 ^ L < 2 ^ L := Nat.mod_lt t (by positivity)
  rcases eq_or_ne ((t + 1) &&& mask) 0 with hz | hz
  · rw [if_pos hz]
    omega
  · rw [if_neg hz]
    have h2L : 2 ≤ 2 ^ L := by
      calc (2 : Nat) = 2 ^ 1 := rfl
        _ ≤ 2 ^ L := Nat.pow_le_pow_right (by norm_num) (by omega)
    have hone : 1 % 2 ^ L = 1 := Nat.mod_eq_of_lt (by omega)
    have hsum : (t + 1) % 2 ^ L = (t % 2 ^ L + 1) % 2 ^ L := by
      conv_lhs => rw [Nat.add_mod, hone]
    have hwrap : t % 2 ^ L ≠ 2 ^ L - 1 := by
      intro hw
      apply hz
      apply hland_mod
      rw [hsum, hw]
      have h2 : 2 ^ L - 1 + 1 = 2 ^ L := by omega
      rw [h2, Nat.mod_self]
    have h1 : (t + 1) % 2 ^ L = t % 2 ^ L + 1 := by
      rw [hsum]
      exact Nat.mod_eq_of_lt (by omega)
    rw [h1]
    omega

/-- Candidate stake coin (CInputCoin: outpoint and the spent txout's value). -/
structure StakeCoin where
  outpointHash : Nat
  outpointN : Nat
  txoutValue : Int
deriving DecidableEq, Repr

/-- UTXO entry resolved for a candidate (the only field the loop reads is the
coin's origin height). -/
structure CoinInfo where
  nHeight : Nat
deriving DecidableEq, Repr

/-- External collaborators of CreateCoinStake, abstracted per spec section 4.3:
the chain-tip stability check, the UTXO view, the active-chain lookup (returning
the block time at a height), the timestamp-protocol inputs, the script solver
outcome, the coin-age computation, the subsidy and the signer. -/
structure StakeEnv where
  chainTipOk : Bool
  getCoin : StakeCoin → Option CoinInfo
  chainAtTime : Nat → Option Nat
  medianTimePast : Nat
  adjustedTime : Nat
  regtest : Bool
  scriptOk : StakeCoin → Bool
  getCoinAge : StakeCoin → Nat → Option Nat
  subsidy : Nat → Int
  signOk : Bool

/-- MAX_FUTURE_BLOCK_TIME, the maximum future drift of a block timestamp. -/
def MAX_FUTURE_BLOCK_TIME : Nat := 2 * 60 * 60

/-- Outcome of one iteration of the candidate loop of CreateCoinStake. -/
inductive StakeStep where
  | skip
  | breakLoop
  | fail
  | success
deriving DecidableEq, Repr

/-- One iteration of the candidate loop (miner.cpp lines 552-706): the chain-tip
check breaks; an unresolvable coin, a missing origin block, a failed min-age or
min-depth precondition, a missed kernel or an unsupported script skip to the next
candidate; a violated timestamp protocol breaks; after a found kernel, a coin-age
failure, a negative subsidy or a failed signature are hard errors; otherwise the
kernel is committed. -/
def processCandidate (kern : StakeCoin → Nat → Bool) (env : StakeEnv) (P : Params)
    (nHeight : Nat) (t : Nat) (c : StakeCoin) : StakeStep :=
  if env.chainTipOk = false then .breakLoop
  else
    match env.getCoin c with
    | none => .skip
    | some coin =>
      match env.chainAtTime coin.nHeight with
      | none => .skip
      | some nTimeBlockFrom =>
        if (nTimeBlockFrom : Int) + P.nStakeMinAge > (t : Int)
            ∨ (nHeight : Int) - (coin.nHeight : Int) < P.nStakeMinDepth then .skip
        else if kern c t = false then .skip
        else if t ≤ env.medianTimePast ∨ t &&& P.nStakeTimestampMask ≠ 0
            ∨ (env.adjustedTime + MAX_FUTURE_BLOCK_TIME < t ∧ env.regtest = false) then .breakLoop
        else if env.scriptOk c = false then .skip
        else
          match env.getCoinAge c t with
          | none => .fail
          | some nCoinAge =>
            if env.subsidy nCoinAge < 0 then .fail
            else if env.signOk = false then .fail
            else .success

/-- Candidate loop of CreateCoinStake: a skip continues with the remaining
candidates, a break or hard error returns false, a committed kernel returns
true, and an exhausted candidate set returns false. -/
def createCoinStakeLoop (kern : StakeCoin → Nat → Bool) (env : StakeEnv) (P : Params)
    (nHeight : Nat) (t : Nat) : List StakeCoin → Bool
  | [] => false
  | c :: rest =>
    match processCandidate kern env P nHeight t c with
    | .skip => createCoinStakeLoop kern env P nHeight t rest
    | .breakLoop => false
    | .fail => false
    | .success => true

/-- CreateCoinStake (miner.cpp lines 540-711): no candidate coins means no
kernel; otherwise the candidate block time is first advanced to the stake
time-slot grid and the candidate loop runs. -/
def createCoinStake (kern : StakeCoin → Nat → Bool) (env : StakeEnv) (P : Params)
    (nHeight : Nat) (selectOk : Bool) (blockTime0 : Nat) (coins : List StakeCoin) : Bool :=
  if selectOk = false then false
  else createCoinStakeLoop kern env P nHeight (slotUpNat P.nStakeTimestampMask blockTime0) coins

/-- Per-algorithm running block count over an arbitrary algorithm tag; nHeightPoS
and nHeightPoW are its instances at tags 0 and 1. -/
def countAlgo (a : Int) (c : ChainIdx) : Nat :=
  c.dropLast.countP (fun b => getAlgoType b.nVersion == a)

/-- Target spacing that an AverageTargetASERT call with a known algorithm tag
uses (proof-of-stake uses the configured spacing, proof-of-work ten minutes). -/
def algoSpacing (P : Params) (a : Int) : Nat :=
  if a = 0 then P.nPowTargetSpacing else 10 * 60

/-- Averaging window breadth of a call with a known algorithm tag. -/
def algoN (P : Params) (a : Int) : Nat := 4 * P.nPowTargetTimespan / algoSpacing P a

/-- Compact ceiling of a call with a known algorithm tag. -/
def algoLimitC (P : Params) (a : Int) : Nat := getCompactBase256 (P.powLimitAt a)

/-- Semantic invariant of the rolling-average target cache over a fixed chain:
an entry keyed by a real algorithm and the height sentinel -1 holds the decoded
genesis target, and an entry keyed by a real algorithm and a window index holds
the average recomputed at some call site of that algorithm inside that window. -/
def CacheInv (P : Params) (ch : ChainIdx) (s : TargetCache) : Prop :=
  (s.nTargetCacheAlgo = 0 ∨ s.nTargetCacheAlgo = 1) →
    ((s.nTargetCacheHeight = -1 →
        ch ≠ [] ∧ s.refBlockTargetCache
          = setCompactBase256 (idxBits (ch.drop (ch.length - 1))))
     ∧ ∀ w : Nat, s.nTargetCacheHeight = (w : Int) → 1 ≤ w →
        ∃ s' : ChainIdx, s' <:+ ch ∧ s' ≠ []
          ∧ asertAvgGuard (algoN P s.nTargetCacheAlgo) s'.length
              (countAlgo s.nTargetCacheAlgo s' + 1)
          ∧ (countAlgo s.nTargetCacheAlgo s' + 1) / algoN P s.nTargetCacheAlgo = w
          ∧ s.refBlockTargetCache = asertRecomputeAvg false false s.nTargetCacheAlgo
              (algoLimitC P s.nTargetCacheAlgo) P.fPowAllowMinDifficultyBlocks
              (algoN P s.nTargetCacheAlgo) (countAlgo s.nTargetCacheAlgo s' + 1)
              (getLastBlockIndexForAlgo s' s.nTargetCacheAlgo))

/-- Mainnet consensus parameters (chainparams.cpp, CMainParams): powLimit
0x1e00ffff for both algorithms, 12-hour timespan, 80-second spacing, 16-second
stake time slots, min-difficulty blocks allowed, 12-hour stake minimum age,
600-block stake minimum depth. -/
def mainParams : Params :=
  ⟨0xffff * 2 ^ 216, 0xffff * 2 ^ 216, 80, 12 * 60 * 60, 0xf, true, false, 12 * 60 * 60, 600⟩

/-- Regtest consensus parameters (chainparams.cpp, CRegTestParams): powLimit
0x207fffff for both algorithms, 1-hour timespan, 80-second spacing, 4-second
stake time slots, retargeting disabled, 1-minute stake minimum age, zero stake
minimum depth. -/
def regParams : Params :=
  ⟨0x7fffff * 2 ^ 232, 0x7fffff * 2 ^ 232, 80, 60 * 60, 0x3, true, true, 60, 0⟩

/-- Concrete three-block proof-of-work chain for witnesses (tip first). -/
def wchain3 : ChainIdx :=
  [⟨2 <<< 29, 1160, 0x1c0fffff, 7⟩, ⟨2 <<< 29, 1080, 0x1c0fffff, 7⟩,
   ⟨2 <<< 29, 1000, 0x1c0fffff, 7⟩]

/-- Candidate proof-of-work header 1500 s past the tip of the counterexample
chain. -/
def cblk14 : Block := ⟨2 <<< 29, 3540, 0x1c0fffff, 7⟩

/-- Fourteen-block proof-of-work chain (tip first) whose tip carries the
floor-minus-one compact bits. -/
def cchain14 : ChainIdx :=
  [⟨2 <<< 29, 2040, 0x1e00fffe, 7⟩,
   ⟨2 <<< 29, 1960, 0x1c0fffff, 7⟩,
   ⟨2 <<< 29, 1880, 0x1c0fffff, 7⟩,
   ⟨2 <<< 29, 1800, 0x1c0fffff, 7⟩,
   ⟨2 <<< 29, 1720, 0x1c0fffff, 7⟩,
   ⟨2 <<< 29, 1640, 0x1c0fffff, 7⟩,
   ⟨2 <<< 29, 1560, 0x1c0fffff, 7⟩,
   ⟨2 <<< 29, 1480, 0x1c0fffff, 7⟩,
   ⟨2 <<< 29, 1400, 0x1c0fffff, 7⟩,
   ⟨2 <<< 29, 1320, 0x1c0fffff, 7⟩,
   ⟨2 <<< 29, 1240, 0x1c0fffff, 7⟩,
   ⟨2 <<< 29, 1160, 0x1c0fffff, 7⟩,
   ⟨2 <<< 29, 1080, 0x1c0fffff, 7⟩,
   ⟨2 <<< 29, 1000, 0x1c0fffff, 7⟩]

/-- Stake environment for the staking witnesses: every lookup succeeds except
the coin-age computation, which fails. -/
def wenv : StakeEnv :=
  ⟨true, fun _ => some ⟨5⟩, fun _ => some 100, 50, 1000000, false,
   fun _ => true, fun _ _ => none, fun _ => 0, true⟩

/-- Consensus parameters with a 450-second timespan, giving an ASERT averaging
window of 3 proof-of-work blocks. -/
def cparams3 : Params :=
  ⟨0xffff * 2 ^ 216, 0xffff * 2 ^ 216, 600, 450, 0xf, false, false, 43200, 600⟩

/-- Exactly-spaced proof-of-work chain (600-second spacings, tip first) whose
window targets differ from the genesis reference target. -/
def chainC3 : ChainIdx :=
  [⟨2 <<< 29, 2800, 0x1b0fffff, 7⟩, ⟨2 <<< 29, 2200, 0x1b0fffff, 7⟩,
   ⟨2 <<< 29, 1600, 0x1b0fffff, 7⟩, ⟨2 <<< 29, 1000, 0x1c0fffff, 7⟩]

/-- Proof-of-work candidate header above chainC3. -/
def hdrC3 : Block := ⟨2 <<< 29, 3400, 0x1b0fffff, 7⟩

/-- Exactly-spaced proof-of-work chain at mainnet parameters (600-second
spacings, tip first, uniform target). -/
def schain3 : ChainIdx :=
  [⟨2 <<< 29, 2200, 0x1c0fffff, 7⟩, ⟨2 <<< 29, 1600, 0x1c0fffff, 7⟩,
   ⟨2 <<< 29, 1000, 0x1c0fffff, 7⟩]

/-- Proof-of-work candidate header above schain3. -/
def shdr : Block := ⟨2 <<< 29, 2800, 0x1c0fffff, 7⟩

/-- Nat.size satisfies the halving recurrence. -/
theorem size_div_two_succ (x : Nat) (hx : x ≠ 0) : Nat.size x = Nat.size (x / 2) + 1 := by
  apply le_antisymm
  · rw [Nat.size_le]
    have h1 : x / 2 < 2 ^ Nat.size (x / 2) := Nat.lt_size_self _
    have h2 : x ≤ 2 * (x / 2) + 1 := by omega
    calc x ≤ 2 * (x / 2) + 1 := h2
      _ < 2 * 2 ^ Nat.size (x / 2) := by omega
      _ = 2 ^ (Nat.size (x / 2) + 1) := by rw [pow_succ]; ring
  · have h3 : 2 ^ Nat.size (x / 2) ≤ x := by
      rcases Nat.eq_zero_or_pos (x / 2) with h0 | h0
      · rw [h0, Nat.size_zero]
        omega
      · have hs : 0 < Nat.size (x / 2) := Nat.size_pos.mpr h0
        have h1 : 2 ^ (Nat.size (x / 2) - 1) ≤ x / 2 := by
          rw [← Nat.lt_size]
          omega
        have h2 : 2 ^ Nat.size (x / 2) = 2 * 2 ^ (Nat.size (x / 2) - 1) := by
          rw [← pow_succ']
          congr 1
          omega
        calc 2 ^ Nat.size (x / 2) = 2 * 2 ^ (Nat.size (x / 2) - 1) := h2
          _ ≤ 2 * (x / 2) := by omega
          _ ≤ x := by omega
    have h4 := Nat.lt_size.mpr h3
    omega

/-- bitsLenGo agrees with Nat.size whenever the fuel dominates the value. -/
theorem bitsLenGo_eq_size : ∀ fuel x : Nat, x ≤ fuel → bitsLenGo fuel x = Nat.size x := by
  intro fuel
  induction fuel with
  | zero =>
    intro x hx
    have h0 : x = 0 := by omega
    subst h0
    simp [bitsLenGo, Nat.size_zero]
  | succ n ih =>
    intro x hx
    match x with
    | 0 => simp [bitsLenGo, Nat.size_zero]
    | x + 1 =>
      have hstep : bitsLenGo (n + 1) (x + 1) = bitsLenGo n ((x + 1) / 2) + 1 := rfl
      rw [hstep, ih ((x + 1) / 2) (by omega)]
      exact (size_div_two_succ (x + 1) (by omega)).symm

/-- bitsLen computes Nat.size. -/
theorem bitsLen_eq_size (x : Nat) : bitsLen x = Nat.size x :=
  bitsLenGo_eq_size x x le_rfl

/-- Packing a sub-2^24 mantissa with the size byte is plain addition. -/
theorem or_pack (S M : Nat) (hM : M < 2 ^ 24) : M ||| S <<< 24 = S * 2 ^ 24 + M := by
  apply Nat.eq_of_testBit_eq
  intro i
  rw [Nat.testBit_lor, Nat.testBit_shiftLeft]
  rcases lt_or_le i 24 with hi | hi
  · have hge : decide (i ≥ 24) = false := by
      simp
      omega
    rw [hge, Bool.false_and, Bool.or_false]
    have h1 : (S * 2 ^ 24 + M).testBit i = ((S * 2 ^ 24 + M) % 2 ^ 24).testBit i := by
      rw [Nat.testBit_mod_two_pow, decide_eq_true hi, Bool.true_and]
    have h2 : (S * 2 ^ 24 + M) % 2 ^ 24 = M := by
      rw [mul_comm, Nat.mul_add_mod]
      exact Nat.mod_eq_of_lt hM
    rw [h1, h2]
  · have hge : decide (i ≥ 24) = true := decide_eq_true hi
    rw [hge, Bool.true_and]
    have hMi : M.testBit i = false :=
      Nat.testBit_eq_false_of_lt (lt_of_lt_of_le hM (Nat.pow_le_pow_right (by norm_num) hi))
    rw [hMi, Bool.false_or]
    rw [Nat.testBit_to_div_mod, Nat.testBit_to_div_mod]
    have h3 : (S * 2 ^ 24 + M) / 2 ^ i = S / 2 ^ (i - 24) := by
      have h4 : (2 : Nat) ^ i = 2 ^ 24 * 2 ^ (i - 24) := by
        rw [← pow_add]
        congr 1
        omega
      rw [h4, ← Nat.div_div_eq_div_mul]
      have h5 : (S * 2 ^ 24 + M) / 2 ^ 24 = S := by
        rw [mul_comm, Nat.mul_add_div (by positivity)]
        have h6 : M / 2 ^ 24 = 0 := Nat.div_eq_of_lt hM
        omega
      rw [h5]
    rw [h3]

/-- Decoding of a packed compact value with mantissa below the sign bit. -/
theorem decode_pack (S M : Nat) (hM : M < 2 ^ 23) :
    setCompactBase256 (M ||| S <<< 24)
      = if S ≤ 3 then M >>> (8 * (3 - S)) else (M <<< (8 * (S - 3))) % 2 ^ 256 := by
  have hM24 : M < 2 ^ 24 := lt_trans hM (by norm_num)
  rw [or_pack S M hM24]
  have hsize : (S * 2 ^ 24 + M) >>> 24 = S := by
    rw [Nat.shiftRight_eq_div_pow, mul_comm, Nat.mul_add_div (by positivity)]
    have h6 : M / 2 ^ 24 = 0 := Nat.div_eq_of_lt hM24
    omega
  have hword : (S * 2 ^ 24 + M) &&& 0x007fffff = M := by
    have h1 : (0x007fffff : Nat) = 2 ^ 23 - 1 := by norm_num
    rw [h1, Nat.and_pow_two_sub_one_eq_mod]
    have h2 : S * 2 ^ 24 + M = 2 ^ 23 * (S * 2) + M := by ring
    rw [h2, Nat.mul_add_mod]
    exact Nat.mod_eq_of_lt hM
  simp only [setCompactBase256, hsize, hword]

/-- Sign-bit test of a 24-bit word is the comparison with 2^23. -/
theorem and23_iff (n : Nat) (hn : n < 2 ^ 24) : n &&& 0x00800000 ≠ 0 ↔ 2 ^ 23 ≤ n := by
  have h1 : (0x00800000 : Nat) = 2 ^ 23 := by norm_num
  rw [h1, Nat.and_two_pow]
  rcases lt_or_le n (2 ^ 23) with hlt | hge
  · have hb : n.testBit 23 = false := Nat.testBit_eq_false_of_lt hlt
    rw [hb]
    simp
    omega
  · have h3 : n / 2 ^ 23 < 2 := by
      apply Nat.div_lt_of_lt_mul
      calc n < 2 ^ 24 := hn
        _ = 2 ^ 23 * 2 := by norm_num
    have h4 : 1 ≤ n / 2 ^ 23 := (Nat.one_le_div_iff (by positivity)).mpr hge
    have h2 : n / 2 ^ 23 = 1 := by omega
    have hb : n.testBit 23 = true := by
      rw [Nat.testBit_to_div_mod, h2]
      rfl
    rw [hb]
    constructor
    · intro _
      exact hge
    · intro _
      norm_num

/-- Size is dominated by eight times the byte size. -/
theorem size_le_8s (x : Nat) : Nat.size x ≤ 8 * ((Nat.size x + 7) / 8) := by
  have h1 := Nat.div_add_mod (Nat.size x + 7) 8
  have h2 : (Nat.size x + 7) % 8 < 8 := Nat.mod_lt _ (by norm_num)
  omega

/-- Bound of a value by its byte size. -/
theorem lt_two_pow_8s (x : Nat) : x < 2 ^ (8 * ((Nat.size x + 7) / 8)) :=
  lt_of_lt_of_le (Nat.lt_size_self x) (Nat.pow_le_pow_right (by norm_num) (size_le_8s x))

/-- The byte size is at most 3 exactly when the value fits 24 bits. -/
theorem s_le_3_iff (x : Nat) : (Nat.size x + 7) / 8 ≤ 3 ↔ x < 2 ^ 24 := by
  rw [← Nat.size_le]
  constructor
  · intro h
    have h1 := Nat.div_add_mod (Nat.size x + 7) 8
    have h2 : (Nat.size x + 7) % 8 < 8 := Nat.mod_lt _ (by norm_num)
    omega
  · intro h
    omega

/-- Decoding the truncating encoder never exceeds the encoded value. -/
theorem decode_encode_le (x : Nat) : setCompactBase256 (getCompactBase256 x) ≤ x := by
  rw [getCompactBase256]
  simp only [bitsLen_eq_size]
  set s := (Nat.size x + 7) / 8 with hs
  have hx8 : x < 2 ^ (8 * s) := lt_two_pow_8s x
  rcases le_or_lt s 3 with hs3 | hs4
  · rw [if_pos hs3]
    have hC : x <<< (8 * (3 - s)) = x * 2 ^ (8 * (3 - s)) := Nat.shiftLeft_eq x _
    have hC24 : x <<< (8 * (3 - s)) < 2 ^ 24 := by
      rw [hC]
      calc x * 2 ^ (8 * (3 - s)) < 2 ^ (8 * s) * 2 ^ (8 * (3 - s)) :=
            mul_lt_mul_of_pos_right hx8 (by positivity)
        _ = 2 ^ (8 * s + 8 * (3 - s)) := by rw [pow_add]
        _ ≤ 2 ^ 24 := Nat.pow_le_pow_right (by norm_num) (by omega)
    rcases eq_or_ne (x <<< (8 * (3 - s)) &&& 0x00800000) 0 with hbit | hbit
    · rw [if_neg (show ¬x <<< (8 * (3 - s)) &&& 0x00800000 ≠ 0 by simpa using hbit)]
      have hlt23 : x <<< (8 * (3 - s)) < 2 ^ 23 := by
        by_contra hge
        exact ((and23_iff _ hC24).mpr (by omega)) hbit
      rw [decode_pack s _ hlt23, if_pos hs3, hC, Nat.shiftRight_eq_div_pow,
        Nat.mul_div_cancel _ (by positivity)]
    · rw [if_pos (show x <<< (8 * (3 - s)) &&& 0x00800000 ≠ 0 from hbit)]
      have hm : x <<< (8 * (3 - s)) >>> 8 < 2 ^ 23 := by
        rw [Nat.shiftRight_eq_div_pow]
        have h5 : x <<< (8 * (3 - s)) / 2 ^ 8 < 2 ^ 16 := by
          apply Nat.div_lt_of_lt_mul
          calc x <<< (8 * (3 - s)) < 2 ^ 24 := hC24
            _ = 2 ^ 16 * 2 ^ 8 := by norm_num
        calc x <<< (8 * (3 - s)) / 2 ^ 8 < 2 ^ 16 := h5
          _ < 2 ^ 23 := by norm_num
      rw [decode_pack (s + 1) _ hm]
      rcases le_or_lt (s + 1) 3 with hs13 | hs14
      · rw [if_pos hs13, hC, Nat.shiftRight_eq_div_pow, Nat.shiftRight_eq_div_pow,
          Nat.div_div_eq_div_mul, ← pow_add]
        have h38 : 8 + 8 * (3 - (s + 1)) = 8 * (3 - s) := by omega
        rw [h38, Nat.mul_div_cancel _ (by positivity)]
      · rw [if_neg (by omega)]
        have hse : s = 3 := by omega
        calc (x <<< (8 * (3 - s)) >>> 8 <<< (8 * (s + 1 - 3))) % 2 ^ 256
            ≤ x <<< (8 * (3 - s)) >>> 8 <<< (8 * (s + 1 - 3)) := Nat.mod_le _ _
          _ = x / 2 ^ 8 * 2 ^ 8 := by
              rw [hse]
              simp [Nat.shiftRight_eq_div_pow, Nat.shiftLeft_eq]
          _ ≤ x := Nat.div_mul_le_self x _
  · rw [if_neg (show ¬s ≤ 3 by omega)]
    have hC : x >>> (8 * (s - 3)) = x / 2 ^ (8 * (s - 3)) := Nat.shiftRight_eq_div_pow x _
    have hC24 : x >>> (8 * (s - 3)) < 2 ^ 24 := by
      rw [hC]
      apply Nat.div_lt_of_lt_mul
      calc x < 2 ^ (8 * s) := hx8
        _ = 2 ^ (8 * (s - 3)) * 2 ^ 24 := by
            rw [← pow_add]
            congr 1
            omega
    rcases eq_or_ne (x >>> (8 * (s - 3)) &&& 0x00800000) 0 with hbit | hbit
    · rw [if_neg (show ¬x >>> (8 * (s - 3)) &&& 0x00800000 ≠ 0 by simpa using hbit)]
      have hlt23 : x >>> (8 * (s - 3)) < 2 ^ 23 := by
        by_contra hge
        exact ((and23_iff _ hC24).mpr (by omega)) hbit
      rw [decode_pack s _ hlt23, if_neg (by omega)]
      calc (x >>> (8 * (s - 3)) <<< (8 * (s - 3))) % 2 ^ 256
          ≤ x >>> (8 * (s - 3)) <<< (8 * (s - 3)) := Nat.mod_le _ _
        _ = x / 2 ^ (8 * (s - 3)) * 2 ^ (8 * (s - 3)) := by
            rw [hC, Nat.shiftLeft_eq]
        _ ≤ x := Nat.div_mul_le_self x _
    · rw [if_pos (show x >>> (8 * (s - 3)) &&& 0x00800000 ≠ 0 from hbit)]
      have hm : x >>> (8 * (s - 3)) >>> 8 < 2 ^ 23 := by
        rw [Nat.shiftRight_eq_div_pow, Nat.shiftRight_eq_div_pow]
        have h5 : x / 2 ^ (8 * (s - 3)) / 2 ^ 8 < 2 ^ 16 := by
          apply Nat.div_lt_of_lt_mul
          rw [hC] at hC24
          calc x / 2 ^ (8 * (s - 3)) < 2 ^ 24 := hC24
            _ = 2 ^ 16 * 2 ^ 8 := by norm_num
        calc x / 2 ^ (8 * (s - 3)) / 2 ^ 8 < 2 ^ 16 := h5
          _ < 2 ^ 23 := by norm_num
      rw [decode_pack (s + 1) _ hm, if_neg (by omega)]
      calc (x >>> (8 * (s - 3)) >>> 8 <<< (8 * (s + 1 - 3))) % 2 ^ 256
          ≤ x >>> (8 * (s - 3)) >>> 8 <<< (8 * (s + 1 - 3)) := Nat.mod_le _ _
        _ = x / 2 ^ (8 * (s + 1 - 3)) * 2 ^ (8 * (s + 1 - 3)) := by
            rw [Nat.shiftRight_eq_div_pow, Nat.shiftRight_eq_div_pow, Nat.shiftLeft_eq,
              Nat.div_div_eq_div_mul, ← pow_add]
            congr 3
            omega
        _ ≤ x := Nat.div_mul_le_self x _

/-- Every decoded compact value is a sub-2^23 mantissa times a power of 256, and
fits 256 bits. -/
theorem setCompact_form (c : Nat) :
    ∃ w k, setCompactBase256 c = w * 2 ^ (8 * k) ∧ w < 2 ^ 23 ∧ setCompactBase256 c < 2 ^ 256 := by
  have hword : c &&& 0x007fffff = c % 2 ^ 23 := by
    have h1 : (0x007fffff : Nat) = 2 ^ 23 - 1 := by norm_num
    rw [h1, Nat.and_pow_two_sub_one_eq_mod]
  have hw23 : c % 2 ^ 23 < 2 ^ 23 := Nat.mod_lt _ (by positivity)
  rw [setCompactBase256, hword]
  rcases le_or_lt (c >>> 24) 3 with hs | hs
  · rw [if_pos hs]
    have hle : (c % 2 ^ 23) >>> (8 * (3 - c >>> 24)) ≤ c % 2 ^ 23 := by
      rw [Nat.shiftRight_eq_div_pow]
      exact Nat.div_le_self _ _
    exact ⟨(c % 2 ^ 23) >>> (8 * (3 - c >>> 24)), 0, by norm_num, by omega,
      lt_of_le_of_lt hle (lt_trans hw23 (by norm_num))⟩
  · rw [if_neg (by omega)]
    have hmod : ((c % 2 ^ 23) <<< (8 * (c >>> 24 - 3))) % 2 ^ 256 < 2 ^ 256 :=
      Nat.mod_lt _ (by positivity)
    rcases le_or_lt 256 (8 * (c >>> 24 - 3)) with hbig | hsmall
    · have h0 : ((c % 2 ^ 23) <<< (8 * (c >>> 24 - 3))) % 2 ^ 256 = 0 := by
        rw [Nat.shiftLeft_eq]
        obtain ⟨q, hq⟩ : (2 : Nat) ^ 256 ∣ 2 ^ (8 * (c >>> 24 - 3)) := pow_dvd_pow 2 hbig
        have h2 : c % 2 ^ 23 * 2 ^ (8 * (c >>> 24 - 3)) = 2 ^ 256 * (c % 2 ^ 23 * q) := by
          rw [hq]
          ring
        rw [h2, Nat.mul_mod_right]
      exact ⟨0, 0, by rw [h0]; norm_num, by positivity, by rw [h0]; positivity⟩
    · refine ⟨c % 2 ^ 23 % 2 ^ (256 - 8 * (c >>> 24 - 3)), c >>> 24 - 3, ?_, ?_, hmod⟩
      · rw [Nat.shiftLeft_eq]
        have h2 : (2 : Nat) ^ 256 = 2 ^ (256 - 8 * (c >>> 24 - 3)) * 2 ^ (8 * (c >>> 24 - 3)) := by
          rw [← pow_add]
          congr 1
          omega
        rw [h2, Nat.mul_mod_mul_right]
      · calc c % 2 ^ 23 % 2 ^ (256 - 8 * (c >>> 24 - 3)) ≤ c % 2 ^ 23 := Nat.mod_le _ _
          _ < 2 ^ 23 := hw23

/-- Truncating encode of a 24-bit value decodes exactly when a set sign bit
implies byte alignment. -/
theorem decode_trunc_small (x : Nat) (hx : x < 2 ^ 24) (h8 : 2 ^ 23 ≤ x → 2 ^ 8 ∣ x) :
    setCompactBase256 (getCompactBase256 x) = x := by
  rw [getCompactBase256]
  simp only [bitsLen_eq_size]
  set s := (Nat.size x + 7) / 8 with hs
  have hs3 : s ≤ 3 := (s_le_3_iff x).mpr hx
  rw [if_pos hs3]
  have hx8 : x < 2 ^ (8 * s) := lt_two_pow_8s x
  have hC : x <<< (8 * (3 - s)) = x * 2 ^ (8 * (3 - s)) := Nat.shiftLeft_eq x _
  have hC24 : x <<< (8 * (3 - s)) < 2 ^ 24 := by
    rw [hC]
    calc x * 2 ^ (8 * (3 - s)) < 2 ^ (8 * s) * 2 ^ (8 * (3 - s)) :=
          mul_lt_mul_of_pos_right hx8 (by positivity)
      _ = 2 ^ (8 * s + 8 * (3 - s)) := by rw [pow_add]
      _ ≤ 2 ^ 24 := Nat.pow_le_pow_right (by norm_num) (by omega)
  rcases eq_or_ne (x <<< (8 * (3 - s)) &&& 0x00800000) 0 with hbit | hbit
  · rw [if_neg (show ¬x <<< (8 * (3 - s)) &&& 0x00800000 ≠ 0 by simpa using hbit)]
    have hlt23 : x <<< (8 * (3 - s)) < 2 ^ 23 := by
      by_contra hge
      exact ((and23_iff _ hC24).mpr (by omega)) hbit
    rw [decode_pack s _ hlt23, if_pos hs3, hC, Nat.shiftRight_eq_div_pow,
      Nat.mul_div_cancel _ (by positivity)]
  · rw [if_pos (show x <<< (8 * (3 - s)) &&& 0x00800000 ≠ 0 from hbit)]
    have hge23 : 2 ^ 23 ≤ x <<< (8 * (3 - s)) := (and23_iff _ hC24).mp hbit
    have hm : x <<< (8 * (3 - s)) >>> 8 < 2 ^ 23 := by
      rw [Nat.shiftRight_eq_div_pow]
      have h5 : x <<< (8 * (3 - s)) / 2 ^ 8 < 2 ^ 16 := by
        apply Nat.div_lt_of_lt_mul
        calc x <<< (8 * (3 - s)) < 2 ^ 24 := hC24
          _ = 2 ^ 16 * 2 ^ 8 := by norm_num
      calc x <<< (8 * (3 - s)) / 2 ^ 8 < 2 ^ 16 := h5
        _ < 2 ^ 23 := by norm_num
    rw [decode_pack (s + 1) _ hm]
    rcases le_or_lt (s + 1) 3 with hs13 | hs14
    · rw [if_pos hs13, hC, Nat.shiftRight_eq_div_pow, Nat.shiftRight_eq_div_pow,
        Nat.div_div_eq_div_mul, ← pow_add]
      have h38 : 8 + 8 * (3 - (s + 1)) = 8 * (3 - s) := by omega
      rw [h38, Nat.mul_div_cancel _ (by positivity)]
    · rw [if_neg (by omega)]
      have hse : s = 3 := by omega
      have hxge : 2 ^ 23 ≤ x := by
        rw [hse] at hge23
        simpa [hC, Nat.shiftLeft_eq] using hge23
      have hdvd : 2 ^ 8 ∣ x := h8 hxge
      have h6 : x <<< (8 * (3 - s)) >>> 8 <<< (8 * (s + 1 - 3)) = x := by
        rw [hse]
        simp only [Nat.shiftRight_eq_div_pow, Nat.shiftLeft_eq]
        norm_num
        exact Nat.div_mul_cancel hdvd
      rw [h6]
      exact Nat.mod_eq_of_lt (lt_trans hx (by norm_num))

/-- Byte size of a nonzero sub-2^23 mantissa lies between 1 and 3. -/
theorem bw_range (w : Nat) (hw0 : w ≠ 0) (hw : w < 2 ^ 23) :
    1 ≤ (Nat.size w + 7) / 8 ∧ (Nat.size w + 7) / 8 ≤ 3 := by
  have h1 : 0 < Nat.size w := Nat.size_pos.mpr (Nat.pos_of_ne_zero hw0)
  have h2 : Nat.size w ≤ 23 := Nat.size_le.mpr (lt_of_lt_of_le hw (by norm_num))
  omega

/-- Rounded encode of a compact-representable value decodes exactly. -/
theorem decode_rounded_roundtrip (w k : Nat) (hw : w < 2 ^ 23)
    (hx : w * 2 ^ (8 * k) < 2 ^ 256) :
    setCompactBase256 (getCompactRoundedBase256 (w * 2 ^ (8 * k))) = w * 2 ^ (8 * k) := by
  rcases eq_or_ne w 0 with hw0 | hw0
  · subst hw0
    rw [zero_mul]
    decide
  have hsz : Nat.size (w * 2 ^ (8 * k)) = Nat.size w + 8 * k := by
    rw [← Nat.shiftLeft_eq]
    exact Nat.size_shiftLeft hw0 _
  have hsx : (Nat.size (w * 2 ^ (8 * k)) + 7) / 8 = (Nat.size w + 7) / 8 + k := by
    rw [hsz]
    have h1 : Nat.size w + 8 * k + 7 = Nat.size w + 7 + 8 * k := by ring
    rw [h1, Nat.add_mul_div_left _ _ (by norm_num)]
  obtain ⟨hbw1, hbw3⟩ := bw_range w hw0 hw
  set bw := (Nat.size w + 7) / 8 with hbwdef
  have hw8 : w < 2 ^ (8 * bw) := lt_two_pow_8s w
  rw [getCompactRoundedBase256]
  simp only [bitsLen_eq_size, hsx]
  rcases le_or_lt (bw + k) 3 with hs3 | hs4
  · rw [if_pos hs3]
    apply decode_trunc_small
    · have h2 : Nat.size (w * 2 ^ (8 * k)) ≤ 24 := by
        rw [hsz]
        have := size_le_8s w
        omega
      exact lt_of_lt_of_le (Nat.lt_size_self _) (Nat.pow_le_pow_right (by norm_num) h2)
    · intro hge
      rcases Nat.eq_zero_or_pos k with hk0 | hk0
      · rw [hk0] at hge ⊢
        norm_num at hge ⊢
        omega
      · have h3 : (2 : Nat) ^ 8 ∣ 2 ^ (8 * k) := pow_dvd_pow 2 (by omega)
        exact Dvd.dvd.mul_left h3 w
  · rw [if_neg (by omega)]
    have hmant : (w * 2 ^ (8 * k)) >>> (8 * (bw + k - 3)) = w * 2 ^ (8 * (3 - bw)) := by
      rw [Nat.shiftRight_eq_div_pow]
      have h1 : (2 : Nat) ^ (8 * k) = 2 ^ (8 * (bw + k - 3)) * 2 ^ (8 * (3 - bw)) := by
        rw [← pow_add]
        congr 1
        omega
      rw [h1, ← mul_assoc, mul_right_comm, Nat.mul_div_cancel _ (by positivity)]
    have hround : ((w * 2 ^ (8 * k)) >>> (8 * (bw + k - 4))) &&& 0xff = 0 := by
      have h2 : (w * 2 ^ (8 * k)) >>> (8 * (bw + k - 4)) = w * 2 ^ (8 * (4 - bw)) := by
        rw [Nat.shiftRight_eq_div_pow]
        have h1 : (2 : Nat) ^ (8 * k) = 2 ^ (8 * (bw + k - 4)) * 2 ^ (8 * (4 - bw)) := by
          rw [← pow_add]
          congr 1
          omega
        rw [h1, ← mul_assoc, mul_right_comm, Nat.mul_div_cancel _ (by positivity)]
      rw [h2]
      have h1 : (0xff : Nat) = 2 ^ 8 - 1 := by norm_num
      rw [h1, Nat.and_pow_two_sub_one_eq_mod]
      have h3 : (2 : Nat) ^ (8 * (4 - bw)) = 2 ^ 8 * 2 ^ (8 * (4 - bw) - 8) := by
        rw [← pow_add]
        congr 1
        omega
      have h4 : w * (2 ^ 8 * 2 ^ (8 * (4 - bw) - 8)) = 2 ^ 8 * (w * 2 ^ (8 * (4 - bw) - 8)) := by
        ring
      rw [h3, h4, Nat.mul_mod_right]
    rw [hround, if_neg (show ¬(0x80 : Nat) ≤ 0 by norm_num), hmant]
    have hm24 : w * 2 ^ (8 * (3 - bw)) < 2 ^ 24 := by
      calc w * 2 ^ (8 * (3 - bw)) < 2 ^ (8 * bw) * 2 ^ (8 * (3 - bw)) :=
            mul_lt_mul_of_pos_right hw8 (by positivity)
        _ = 2 ^ (8 * bw + 8 * (3 - bw)) := by rw [pow_add]
        _ ≤ 2 ^ 24 := Nat.pow_le_pow_right (by norm_num) (by omega)
    rcases lt_or_le (w * 2 ^ (8 * (3 - bw))) (2 ^ 23) with hlt | hge
    · rw [if_neg (show ¬(0x00800000 : Nat) ≤ w * 2 ^ (8 * (3 - bw)) by omega),
        decode_pack (bw + k) _ hlt, if_neg (show ¬bw + k ≤ 3 by omega)]
      have h5 : (w * 2 ^ (8 * (3 - bw))) <<< (8 * (bw + k - 3)) = w * 2 ^ (8 * k) := by
        rw [Nat.shiftLeft_eq, mul_assoc, ← pow_add]
        congr 2
        omega
      rw [h5]
      exact Nat.mod_eq_of_lt hx
    · rw [if_pos (show (0x00800000 : Nat) ≤ w * 2 ^ (8 * (3 - bw)) by omega)]
      have hbw2 : bw ≤ 2 := by
        by_contra hbw3x
        have hbe : bw = 3 := by omega
        rw [hbe] at hge
        norm_num at hge
        omega
      have h6 : (w * 2 ^ (8 * (3 - bw))) >>> 8 = w * 2 ^ (8 * (2 - bw)) := by
        rw [Nat.shiftRight_eq_div_pow]
        have h1 : (2 : Nat) ^ (8 * (3 - bw)) = 2 ^ (8 * (2 - bw)) * 2 ^ 8 := by
          rw [← pow_add]
          congr 1
          omega
        rw [h1, ← mul_assoc, Nat.mul_div_cancel _ (by positivity)]
      have hm16 : (w * 2 ^ (8 * (3 - bw))) >>> 8 < 2 ^ 23 := by
        rw [Nat.shiftRight_eq_div_pow]
        have h7 : w * 2 ^ (8 * (3 - bw)) / 2 ^ 8 < 2 ^ 16 := by
          apply Nat.div_lt_of_lt_mul
          calc w * 2 ^ (8 * (3 - bw)) < 2 ^ 24 := hm24
            _ = 2 ^ 16 * 2 ^ 8 := by norm_num
        calc w * 2 ^ (8 * (3 - bw)) / 2 ^ 8 < 2 ^ 16 := h7
          _ < 2 ^ 23 := by norm_num
      rw [decode_pack (bw + k + 1) _ hm16, if_neg (show ¬bw + k + 1 ≤ 3 by omega), h6]
      have h8 : (w * 2 ^ (8 * (2 - bw))) <<< (8 * (bw + k + 1 - 3)) = w * 2 ^ (8 * k) := by
        rw [Nat.shiftLeft_eq, mul_assoc, ← pow_add]
        congr 2
        omega
      rw [h8]
      exact Nat.mod_eq_of_lt hx

/-- Rounded re-encode of a decoded compact value decodes back to the same value. -/
theorem decode_rounded_decode (c : Nat) :
    setCompactBase256 (getCompactRoundedBase256 (setCompactBase256 c)) = setCompactBase256 c := by
  obtain ⟨w, k, hf, hw, hlt⟩ := setCompact_form c
  rw [hf] at hlt ⊢
  exact decode_rounded_roundtrip w k hw hlt

/-- The algorithm walk returns a suffix of its input. -/
theorem getLastBlockIndexForAlgo_suffix (c : ChainIdx) (a : Int) :
    getLastBlockIndexForAlgo c a <:+ c := by
  induction c with
  | nil => simp [getLastBlockIndexForAlgo]
  | cons b rest ih =>
    rw [getLastBlockIndexForAlgo]
    split
    · exact ih.trans (List.suffix_cons b rest)
    · exact List.suffix_refl _

/-- The algorithm walk preserves non-nullity. -/
theorem getLastBlockIndexForAlgo_ne_nil {c : ChainIdx} (a : Int) (h : c ≠ []) :
    getLastBlockIndexForAlgo c a ≠ [] := by
  induction c with
  | nil => exact absurd rfl h
  | cons b rest ih =>
    rw [getLastBlockIndexForAlgo]
    split
    · rename_i hcond
      exact ih hcond.2
    · simp

/-- The proof-of-stake walk returns a suffix of its input. -/
theorem getLastBlockIndex_suffix (c : ChainIdx) (f : Bool) : getLastBlockIndex c f <:+ c := by
  induction c with
  | nil => simp [getLastBlockIndex]
  | cons b rest ih =>
    rw [getLastBlockIndex]
    split
    · exact ih.trans (List.suffix_cons b rest)
    · exact List.suffix_refl _

/-- The proof-of-stake walk preserves non-nullity. -/
theorem getLastBlockIndex_ne_nil {c : ChainIdx} (f : Bool) (h : c ≠ []) :
    getLastBlockIndex c f ≠ [] := by
  induction c with
  | nil => exact absurd rfl h
  | cons b rest ih =>
    rw [getLastBlockIndex]
    split
    · rename_i hcond
      exact ih hcond.2
    · simp

/-- The previous-block selection returns a suffix of its input. -/
theorem selPrev_suffix (fm f : Bool) (a : Int) (c : ChainIdx) : selPrev fm f a c <:+ c := by
  rw [selPrev]
  split
  · exact getLastBlockIndex_suffix c f
  · exact getLastBlockIndexForAlgo_suffix c a

/-- The previous-block selection preserves non-nullity. -/
theorem selPrev_ne_nil (fm f : Bool) (a : Int) {c : ChainIdx} (h : c ≠ []) :
    selPrev fm f a c ≠ [] := by
  rw [selPrev]
  split
  · exact getLastBlockIndex_ne_nil f h
  · exact getLastBlockIndexForAlgo_ne_nil a h

/-- A nonempty suffix ends where the whole list ends. -/
theorem suffix_drop_last {s c : List Block} (hs : s <:+ c) (hne : s ≠ []) :
    s.drop (s.length - 1) = c.drop (c.length - 1) := by
  obtain ⟨t, rfl⟩ := hs
  have h1 : (t ++ s).length = t.length + s.length := List.length_append t s
  have h2 : (t ++ s).length - 1 = t.length + (s.length - 1) := by
    have h3 : 1 ≤ s.length := List.length_pos.mpr hne
    omega
  rw [h2, List.drop_append]

/-- The ASERT reference walk lands on the genesis entry. -/
theorem asertRefWalkGo_genesis (a : Int) :
    ∀ n c, c ≠ [] → c.length ≤ n → asertRefWalkGo 0 a n c = c.drop (c.length - 1) := by
  intro n
  induction n with
  | zero =>
    intro c hne hlen
    have : c = [] := List.length_eq_zero.mp (by omega)
    exact absurd this hne
  | succ n ih =>
    intro c hne hlen
    match c with
    | b :: rest =>
      rw [asertRefWalkGo]
      have hh : (0 : Int) ≤ idxHeight (b :: rest) := by
        rw [idxHeight]
        have : 1 ≤ (b :: rest).length := by simp
        omega
      rw [if_pos hh]
      rcases eq_or_ne rest ([] : ChainIdx) with hrest | hrest
      · subst hrest
        simp [getLastBlockIndexForAlgo]
      · have hp : getLastBlockIndexForAlgo (b :: rest).tail a ≠ [] :=
          getLastBlockIndexForAlgo_ne_nil a hrest
        rw [if_neg hp]
        have hsfx : getLastBlockIndexForAlgo (b :: rest).tail a <:+ b :: rest :=
          (getLastBlockIndexForAlgo_suffix rest a).trans (List.suffix_cons b rest)
        have hlen2 : (getLastBlockIndexForAlgo (b :: rest).tail a).length ≤ n := by
          have := (getLastBlockIndexForAlgo_suffix rest a).length_le
          have hr : (b :: rest).length = rest.length + 1 := by simp
          simp only [List.tail_cons]
          omega
        rw [ih _ hp hlen2]
        exact suffix_drop_last hsfx hp

/-- GetASERTReferenceBlockForAlgo with start height zero always returns the
genesis entry, whatever the algorithm and starting point. -/
theorem asertReferenceBlock_genesis (fm f : Bool) (a : Int) {c : ChainIdx} (h : c ≠ []) :
    asertReferenceBlock fm f a c = c.drop (c.length - 1) := by
  rw [asertReferenceBlock, getASERTReferenceBlockForAlgo, if_neg h]
  exact asertRefWalkGo_genesis _ c.length c h le_rfl

theorem nHeightPoS_eq_countAlgo (c : ChainIdx) : nHeightPoS c = countAlgo 0 c := rfl

theorem nHeightPoW_eq_countAlgo (c : ChainIdx) : nHeightPoW c = countAlgo 1 c := rfl

theorem selPrev_false (f : Bool) (a : Int) (c : ChainIdx) :
    selPrev false f a c = getLastBlockIndexForAlgo c a := rfl

theorem countAlgo_cons (a : Int) (b : Block) {s : ChainIdx} (hs : s ≠ []) :
    countAlgo a (b :: s) = countAlgo a s + (if getAlgoType b.nVersion = a then 1 else 0) := by
  rw [countAlgo, countAlgo, List.dropLast_cons_of_ne_nil hs, List.countP_cons]
  congr 1
  split
  · rename_i h
    rw [if_pos (by simpa using h)]
  · rename_i h
    rw [if_neg (by simpa using h)]

theorem countAlgo_append (a : Int) (l : List Block) {s : ChainIdx} (hs : s ≠ []) :
    countAlgo a (l ++ s)
      = l.countP (fun b => getAlgoType b.nVersion == a) + countAlgo a s := by
  match s, hs with
  | b :: s2, _ =>
    rw [countAlgo, countAlgo, List.dropLast_append_cons, List.countP_append]

theorem getLastForAlgo_cons_same {b : Block} {a : Int} (s : ChainIdx)
    (hb : getAlgoType b.nVersion = a) : getLastBlockIndexForAlgo (b :: s) a = b :: s := by
  rw [getLastBlockIndexForAlgo]
  rw [if_neg]
  intro hcond
  exact hcond.1 hb

theorem getLastForAlgo_cons_diff {b : Block} {a : Int} {s : ChainIdx}
    (hb : getAlgoType b.nVersion ≠ a) (hs : s ≠ []) :
    getLastBlockIndexForAlgo (b :: s) a = getLastBlockIndexForAlgo s a := by
  rw [getLastBlockIndexForAlgo, if_pos ⟨hb, hs⟩]

/-- One-block extension inside the same averaging window does not move the
landing point of the skip loop. -/
theorem window_step (f : Bool) (a : Int) (b : Block) {s : ChainIdx} (hs : s ≠ []) (N : Nat)
    (hw : (countAlgo a (b :: s) + 1) / N = (countAlgo a s + 1) / N) :
    iterStep (fun p => selPrev false f a p.tail) ((countAlgo a (b :: s) + 1) % N)
        (getLastBlockIndexForAlgo (b :: s) a)
      = iterStep (fun p => selPrev false f a p.tail) ((countAlgo a s + 1) % N)
        (getLastBlockIndexForAlgo s a) := by
  rcases eq_or_ne (getAlgoType b.nVersion) a with hb | hb
  · have hc : countAlgo a (b :: s) = countAlgo a s + 1 := by
      rw [countAlgo_cons a b hs, if_pos hb]
    have hmod : (countAlgo a (b :: s) + 1) % N = (countAlgo a s + 1) % N + 1 := by
      rcases Nat.eq_zero_or_pos N with hN | hN
      · subst hN
        simp [Nat.mod_zero, hc]
      · have h1 := Nat.div_add_mod (countAlgo a s + 1) N
        have h2 := Nat.div_add_mod (countAlgo a (b :: s) + 1) N
        have h3 : (countAlgo a s + 1) % N < N := Nat.mod_lt _ hN
        have h4 : (countAlgo a (b :: s) + 1) % N < N := Nat.mod_lt _ hN
        rw [hw] at h2
        omega
    rw [hmod, getLastForAlgo_cons_same s hb]
    have hstep : iterStep (fun p => selPrev false f a p.tail) ((countAlgo a s + 1) % N + 1) (b :: s)
        = iterStep (fun p => selPrev false f a p.tail) ((countAlgo a s + 1) % N)
          (getLastBlockIndexForAlgo s a) := by
      have h5 : ∀ (k : Nat) (c : ChainIdx),
          iterStep (fun p => selPrev false f a p.tail) (k + 1) c
            = iterStep (fun p => selPrev false f a p.tail) k (selPrev false f a c.tail) := by
        intro k c
        rfl
      rw [h5]
      rfl
    rw [hstep]
  · have hc : countAlgo a (b :: s) = countAlgo a s := by
      rw [countAlgo_cons a b hs, if_neg hb]
      omega
    rw [hc, getLastForAlgo_cons_diff hb hs]

/-- Extension by any block list inside the same averaging window does not move
the landing point. -/
theorem window_ext (f : Bool) (a : Int) (l : List Block) {s : ChainIdx} (hs : s ≠ []) (N : Nat)
    (hw : (countAlgo a (l ++ s) + 1) / N = (countAlgo a s + 1) / N) :
    iterStep (fun p => selPrev false f a p.tail) ((countAlgo a (l ++ s) + 1) % N)
        (getLastBlockIndexForAlgo (l ++ s) a)
      = iterStep (fun p => selPrev false f a p.tail) ((countAlgo a s + 1) % N)
        (getLastBlockIndexForAlgo s a) := by
  induction l with
  | nil => simp
  | cons b l ih =>
    have hls : l ++ s ≠ [] := by
      intro h0
      exact hs (List.append_eq_nil.mp h0).2
    have hmono1 : countAlgo a s ≤ countAlgo a (l ++ s) := by
      rw [countAlgo_append a l hs]
      omega
    have hmono2 : countAlgo a (l ++ s) ≤ countAlgo a (b :: (l ++ s)) := by
      rw [countAlgo_cons a b hls]
      omega
    have hd1 : (countAlgo a (l ++ s) + 1) / N = (countAlgo a s + 1) / N := by
      have ha1 : (countAlgo a s + 1) / N ≤ (countAlgo a (l ++ s) + 1) / N :=
        Nat.div_le_div_right (by omega)
      have ha2 : (countAlgo a (l ++ s) + 1) / N ≤ (countAlgo a (b :: (l ++ s)) + 1) / N :=
        Nat.div_le_div_right (by omega)
      have ha3 := hw
      rw [List.cons_append] at ha3
      omega
    have hstep := window_step f a b hls N (by rw [hd1]; exact hd1 ▸ (by rw [List.cons_append] at hw; rw [hw, hd1]))
    rw [List.cons_append]
    calc iterStep (fun p => selPrev false f a p.tail) ((countAlgo a (b :: (l ++ s)) + 1) % N)
          (getLastBlockIndexForAlgo (b :: (l ++ s)) a)
        = iterStep (fun p => selPrev false f a p.tail) ((countAlgo a (l ++ s) + 1) % N)
          (getLastBlockIndexForAlgo (l ++ s) a) := hstep
      _ = _ := ih hd1

/-- Recomputed rolling averages agree across any two call sites in the same
averaging window of the same algorithm. -/
theorem recompute_coherent (f1 f2 : Bool) (a : Int) (limitC : Nat) (fMD : Bool) (N : Nat)
    {ch s1 s2 : ChainIdx} (h1 : s1 <:+ ch) (h2 : s2 <:+ ch) (hn1 : s1 ≠ []) (hn2 : s2 ≠ [])
    (hww : (countAlgo a s1 + 1) / N = (countAlgo a s2 + 1) / N) :
    asertRecomputeAvg false f1 a limitC fMD N (countAlgo a s1 + 1)
        (getLastBlockIndexForAlgo s1 a)
      = asertRecomputeAvg false f2 a limitC fMD N (countAlgo a s2 + 1)
        (getLastBlockIndexForAlgo s2 a) := by
  have key : ∀ (g1 g2 : Bool) (t1 t2 : ChainIdx), t1 <:+ ch → t2 <:+ ch → t1 ≠ [] → t2 ≠ [] →
      t1.length ≤ t2.length → (countAlgo a t1 + 1) / N = (countAlgo a t2 + 1) / N →
      asertRecomputeAvg false g1 a limitC fMD N (countAlgo a t2 + 1)
          (getLastBlockIndexForAlgo t2 a)
        = asertRecomputeAvg false g2 a limitC fMD N (countAlgo a t1 + 1)
          (getLastBlockIndexForAlgo t1 a) := by
    intro g1 g2 t1 t2 ht1 ht2 htn1 htn2 hlen hweq
    have hsub : t1 <:+ t2 := List.suffix_of_suffix_length_le ht1 ht2 hlen
    obtain ⟨l, rfl⟩ := hsub
    rw [asertRecomputeAvg, asertRecomputeAvg]
    have hland := window_ext g1 a l htn1 N (by rw [hweq])
    rw [hland]
    rfl
  rcases le_total s1.length s2.length with hle | hle
  · exact (key f1 f2 s1 s2 h1 h2 hn1 hn2 hle hww).symm
  · exact key f2 f1 s2 s1 h2 h1 hn2 hn1 hle hww.symm

/-- The algorithm tag takes only the values 0, 1 and -1. -/
theorem getAlgoType_cases (v : Nat) :
    getAlgoType v = 0 ∨ getAlgoType v = 1 ∨ getAlgoType v = -1 := by
  rw [getAlgoType]
  split
  · exact Or.inl rfl
  · split
    · exact Or.inr (Or.inl rfl)
    · exact Or.inr (Or.inr rfl)

/-- A proof-of-stake tag forces the proof-of-stake flag of the header. -/
theorem fpos_of_algo_pos {hdr : Block} (h : getAlgoType hdr.nVersion = 0) :
    isProofOfStake hdr = true := by
  rw [getAlgoType] at h
  split at h
  · rename_i hA
    rw [isProofOfStake]
    simp [hA]
  · split at h
    · omega
    · omega

/-- A proof-of-work tag forces the proof-of-stake flag of the header off. -/
theorem fpos_of_algo_pow {hdr : Block} (h : getAlgoType hdr.nVersion = 1) :
    isProofOfStake hdr = false := by
  rw [getAlgoType] at h
  split at h
  · omega
  · split at h
    · rename_i hA hB
      rw [isProofOfStake]
      have hge : VERSION_ALGO_POW_SHA256 ≤ hdr.nVersion := by
        rw [← hB]
        exact Nat.and_le_left
      have hlt : ¬hdr.nVersion < FIRST_FORK_VERSION := by
        rw [VERSION_ALGO_POW_SHA256] at hge
        rw [FIRST_FORK_VERSION]
        have h2 : (2 <<< 29 : Nat) = 1073741824 := by norm_num [Nat.shiftLeft_eq]
        omega
      simp [hA, hlt]
    · omega

/-- The process-start cache state satisfies the invariant. -/
theorem cacheInv_init (P : Params) (ch : ChainIdx) : CacheInv P ch initTargetCache := by
  intro hreal
  rcases hreal with h | h <;> simp [initTargetCache] at h

/-- A nonempty suffix comes from a nonempty chain. -/
theorem suffix_ne_nil {c ch : ChainIdx} (h : c <:+ ch) (hc : c ≠ []) : ch ≠ [] := by
  intro h0
  subst h0
  exact hc (List.suffix_nil.mp h)

/-- The reference block of any call on a nonempty suffix carries the genesis
target bits. -/
theorem refBlock_bits_genesis (fm f : Bool) (a : Int) {c ch : ChainIdx}
    (hsfx : c <:+ ch) (hc : c ≠ []) :
    idxBits (asertReferenceBlock fm f a (selPrev fm f a c))
      = idxBits (ch.drop (ch.length - 1)) := by
  have hpne : selPrev fm f a c ≠ [] := selPrev_ne_nil fm f a hc
  have hpsfx : selPrev fm f a c <:+ ch := (selPrev_suffix fm f a c).trans hsfx
  rw [asertReferenceBlock_genesis fm f a hpne, suffix_drop_last hpsfx hpne]

/-- Correctness of one cached reference-target selection: in any cache state
satisfying the invariant, the cached selection returns the cache-free value and
preserves the invariant. -/
theorem refTargetCached_correct (P : Params) (ch : ChainIdx) {c : ChainIdx}
    (hsfx : c <:+ ch) (hcne : c ≠ []) (hdr : Block) (s : TargetCache) (hinv : CacheInv P ch s)
    (algo : Int) (halgo : algo = getAlgoType hdr.nVersion)
    (fPoS : Bool) (hf : fPoS = isProofOfStake hdr)
    (limitC : Nat)
    (hlim : limitC = getCompactBase256
      (if algo = -1 then (if fPoS then P.powLimitPoS else P.powLimitPoW) else P.powLimitAt algo))
    (N : Nat)
    (hN : N = 4 * P.nPowTargetTimespan / (if fPoS then P.nPowTargetSpacing else 10 * 60))
    (diff : Nat)
    (hdiff : diff = (if fPoS then nHeightPoS c else nHeightPoW c) + 1) :
    (asertRefTargetCached (decide (algo = -1)) fPoS algo limitC P.fPowAllowMinDifficultyBlocks
        N c.length diff (selPrev (decide (algo = -1)) fPoS algo c)
        (asertReferenceBlock (decide (algo = -1)) fPoS algo
          (selPrev (decide (algo = -1)) fPoS algo c)) s).1
      = asertRefTargetFree (decide (algo = -1)) fPoS algo limitC P.fPowAllowMinDifficultyBlocks
        N c.length diff (selPrev (decide (algo = -1)) fPoS algo c)
        (asertReferenceBlock (decide (algo = -1)) fPoS algo
          (selPrev (decide (algo = -1)) fPoS algo c))
    ∧ CacheInv P ch (asertRefTargetCached (decide (algo = -1)) fPoS algo limitC
        P.fPowAllowMinDifficultyBlocks N c.length diff (selPrev (decide (algo = -1)) fPoS algo c)
        (asertReferenceBlock (decide (algo = -1)) fPoS algo
          (selPrev (decide (algo = -1)) fPoS algo c)) s).2 := by
  have hbridge : algo ≠ -1 →
      algoN P algo = N ∧ algoLimitC P algo = limitC ∧ countAlgo algo c + 1 = diff
        ∧ (algo = 0 ∨ algo = 1) := by
    intro hne
    rcases getAlgoType_cases hdr.nVersion with h0 | h1 | hm1
    · have ha0 : algo = 0 := by rw [halgo, h0]
      have hfp : fPoS = true := by
        rw [hf]
        exact fpos_of_algo_pos h0
      refine ⟨?_, ?_, ?_, Or.inl ha0⟩
      · rw [algoN, algoSpacing, if_pos ha0, hN, hfp]
        simp
      · rw [algoLimitC, Params.powLimitAt, if_pos ha0, hlim, if_neg hne, Params.powLimitAt,
          if_pos ha0]
      · rw [ha0, hdiff, hfp, ← nHeightPoS_eq_countAlgo]
        simp
    · have ha1 : algo = 1 := by rw [halgo, h1]
      have hfp : fPoS = false := by
        rw [hf]
        exact fpos_of_algo_pow h1
      refine ⟨?_, ?_, ?_, Or.inr ha1⟩
      · rw [algoN, algoSpacing, if_neg (show ¬algo = 0 by omega), hN, hfp]
        simp
      · rw [algoLimitC, hlim, if_neg hne]
      · rw [ha1, hdiff, hfp, ← nHeightPoW_eq_countAlgo]
        simp
    · exact absurd (halgo.trans hm1) hne
  rw [asertRefTargetCached, asertRefTargetFree]
  by_cases hg : asertAvgGuard N c.length diff
  · rw [if_pos hg, if_pos hg]
    have hw1 : 1 ≤ diff / N := by
      obtain ⟨hN0, _, hdN⟩ := hg
      exact (Nat.one_le_div_iff hN0).mpr hdN
    by_cases hre : s.nTargetCacheHeight ≠ ((diff / N : Nat) : Int) ∨ s.nTargetCacheAlgo ≠ algo
        ∨ s.refBlockTargetCache = 0 ∨ (decide (algo = -1) = true)
    · rw [if_pos hre]
      refine ⟨rfl, ?_⟩
      intro hreal
      have hne : algo ≠ -1 := by
        rcases hreal with h | h
        · have h' : algo = 0 := h
          omega
        · have h' : algo = 1 := h
          omega
      have hfm : decide (algo = -1) = false := decide_eq_false hne
      obtain ⟨haN, halim, hacd, hrealgo⟩ := hbridge hne
      constructor
      · intro hm1
        exfalso
        have hm1' : ((diff / N : Nat) : Int) = -1 := hm1
        omega
      · intro w hw hw1w
        have hw' : ((diff / N : Nat) : Int) = (w : Int) := hw
        have hww : diff / N = w := by exact_mod_cast hw'
        refine ⟨c, hsfx, hcne, ?_, ?_, ?_⟩
        · show asertAvgGuard (algoN P algo) c.length (countAlgo algo c + 1)
          rw [haN, hacd]
          exact hg
        · show (countAlgo algo c + 1) / algoN P algo = w
          rw [haN, hacd, hww]
        · show asertRecomputeAvg (decide (algo = -1)) fPoS algo limitC
            P.fPowAllowMinDifficultyBlocks N diff (selPrev (decide (algo = -1)) fPoS algo c)
            = asertRecomputeAvg false false algo (algoLimitC P algo)
              P.fPowAllowMinDifficultyBlocks (algoN P algo) (countAlgo algo c + 1)
              (getLastBlockIndexForAlgo c algo)
          rw [haN, halim, hacd, hfm, selPrev_false]
          rfl
    · rw [if_neg hre]
      push_neg at hre
      obtain ⟨hkey, hak, ht0, hfmf⟩ := hre
      have hne : algo ≠ -1 := by
        intro h0
        exact hfmf (decide_eq_true h0)
      have hfm : decide (algo = -1) = false := decide_eq_false hne
      obtain ⟨haN, halim, hacd, hrealgo⟩ := hbridge hne
      have hrealk : s.nTargetCacheAlgo = 0 ∨ s.nTargetCacheAlgo = 1 := by
        rw [hak]
        exact hrealgo
      obtain ⟨_, hB⟩ := hinv hrealk
      obtain ⟨s', hs'sfx, hs'ne, hs'g, hs'w, hs'v⟩ := hB (diff / N) (by exact_mod_cast hkey) hw1
      rw [hak] at hs'w hs'v
      rw [haN] at hs'w
      rw [haN, halim] at hs'v
      constructor
      · show s.refBlockTargetCache
          = asertRecomputeAvg (decide (algo = -1)) fPoS algo limitC
            P.fPowAllowMinDifficultyBlocks N diff (selPrev (decide (algo = -1)) fPoS algo c)
        have hwin : (countAlgo algo s' + 1) / N = (countAlgo algo c + 1) / N := by
          rw [hs'w, hacd]
        have hcoh := recompute_coherent false false algo limitC P.fPowAllowMinDifficultyBlocks N
          hs'sfx hsfx hs'ne hcne hwin
        rw [hs'v, hcoh, hacd, hfm, selPrev_false]
        rfl
      · exact hinv
  · rw [if_neg hg, if_neg hg]
    by_cases hfm : algo = -1
    · have hfmt : (decide (algo = -1)) = true := decide_eq_true hfm
      rw [if_neg (by rw [hfmt]; simp)]
      exact ⟨rfl, hinv⟩
    · have hfmf : (decide (algo = -1)) = false := decide_eq_false hfm
      rw [if_pos (by rw [hfmf]; simp)]
      obtain ⟨haN, halim, hacd, hrealgo⟩ := hbridge hfm
      by_cases hre : s.nTargetCacheHeight ≠ -1 ∨ s.nTargetCacheAlgo ≠ algo
          ∨ s.refBlockTargetCache = 0
      · rw [if_pos hre]
        refine ⟨rfl, ?_⟩
        intro hreal
        constructor
        · intro _
          refine ⟨suffix_ne_nil hsfx hcne, ?_⟩
          show setCompactBase256 (idxBits (asertReferenceBlock (decide (algo = -1)) fPoS algo
              (selPrev (decide (algo = -1)) fPoS algo c)))
            = setCompactBase256 (idxBits (ch.drop (ch.length - 1)))
          rw [refBlock_bits_genesis _ fPoS algo hsfx hcne]
        · intro w hw hw1w
          exfalso
          have hw' : (-1 : Int) = (w : Int) := hw
          omega
      · rw [if_neg hre]
        push_neg at hre
        obtain ⟨hkey, hak, ht0⟩ := hre
        have hrealk : s.nTargetCacheAlgo = 0 ∨ s.nTargetCacheAlgo = 1 := by
          rw [hak]
          exact hrealgo
        obtain ⟨hA, _⟩ := hinv hrealk
        obtain ⟨hchne, hval⟩ := hA hkey
        constructor
        · show s.refBlockTargetCache
            = setCompactBase256 (idxBits (asertReferenceBlock (decide (algo = -1)) fPoS algo
              (selPrev (decide (algo = -1)) fPoS algo c)))
          rw [hval, refBlock_bits_genesis _ fPoS algo hsfx hcne]
        · exact hinv

/-- Correctness of one full AverageTargetASERT call with the cache: the cached
implementation returns the cache-free value and preserves the cache invariant. -/
theorem asertCached_call_correct (P : Params) (ch : ChainIdx) {c : ChainIdx}
    (hsfx : c <:+ ch) (hdr : Block) (s : TargetCache) (hinv : CacheInv P ch s) :
    (averageTargetASERTCached c hdr P s).1 = averageTargetASERT c hdr P
    ∧ CacheInv P ch (averageTargetASERTCached c hdr P s).2 := by
  simp only [averageTargetASERTCached, averageTargetASERT]
  by_cases h1 : c = []
  · simp only [if_pos h1]
    exact ⟨trivial, hinv⟩
  · simp only [if_neg h1]
    by_cases h2 : (selPrev (decide (getAlgoType hdr.nVersion = -1)) (isProofOfStake hdr)
        (getAlgoType hdr.nVersion) c).tail = []
    · simp only [if_pos h2]
      exact ⟨trivial, hinv⟩
    · simp only [if_neg h2]
      by_cases h3 : (selPrev (decide (getAlgoType hdr.nVersion = -1)) (isProofOfStake hdr)
          (getAlgoType hdr.nVersion) (selPrev (decide (getAlgoType hdr.nVersion = -1))
            (isProofOfStake hdr) (getAlgoType hdr.nVersion) c).tail).tail = []
      · simp only [if_pos h3]
        exact ⟨trivial, hinv⟩
      · simp only [if_neg h3]
        by_cases h4 : ((c.length : Int) < 0)
        · simp only [if_pos h4]
          exact ⟨trivial, hinv⟩
        · simp only [if_neg h4]
          obtain ⟨hval, hinv2⟩ :=
            refTargetCached_correct P ch hsfx h1 hdr s hinv _ rfl _ rfl _ rfl _ rfl _ rfl
          constructor
          · rw [hval]
          · exact hinv2

/-- The cache invariant holds after any sequence of cached calls. -/
theorem runTargetCache_inv (P : Params) (ch : ChainIdx) (calls : List (Nat × Block)) :
    CacheInv P ch (runTargetCache P ch calls) := by
  rw [runTargetCache]
  have h : ∀ (l : List (Nat × Block)) (s : TargetCache), CacheInv P ch s →
      CacheInv P ch (l.foldl
        (fun s q => (averageTargetASERTCached (ch.drop q.1) q.2 P s).2) s) := by
    intro l
    induction l with
    | nil =>
      intro s hs
      exact hs
    | cons q l ih =>
      intro s hs
      exact ih _ (asertCached_call_correct P ch (List.drop_suffix q.1 ch) q.2 s hs).2
  exact h calls initTargetCache (cacheInv_init P ch)

/-- In the averaging regime, a cached-key mismatch on the window index or the
algorithm forces a recomputation of the rolling average. -/
theorem asertRefTargetCached_mismatch (b f : Bool) (algo : Int) (L : Nat) (fMD : Bool)
    (N nH nHD : Nat) (p r : ChainIdx) (s : TargetCache)
    (hg : asertAvgGuard N nH nHD)
    (hm : s.nTargetCacheHeight ≠ ((nHD / N : Nat) : Int) ∨ s.nTargetCacheAlgo ≠ algo) :
    (asertRefTargetCached b f algo L fMD N nH nHD p r s).1
      = asertRecomputeAvg b f algo L fMD N nHD p := by
  unfold asertRefTargetCached
  rw [if_pos hg, if_pos (Or.imp_right Or.inl hm)]

/-- With the unknown algorithm tag the cached selection ignores the cache state
and returns the cache-free value. -/
theorem asertRefTargetCached_missing (b f : Bool) (algo : Int) (L : Nat) (fMD : Bool)
    (N nH nHD : Nat) (p r : ChainIdx) (s : TargetCache) (hb : b = true) :
    (asertRefTargetCached b f algo L fMD N nH nHD p r s).1
      = asertRefTargetFree b f algo L fMD N nH nHD p r := by
  subst hb
  unfold asertRefTargetCached asertRefTargetFree
  by_cases hg : asertAvgGuard N nH nHD
  · rw [if_pos hg, if_pos hg, if_pos (Or.inr (Or.inr (Or.inr rfl)))]
  · rw [if_neg hg, if_neg hg, if_neg (not_not_intro rfl)]

/-- A call with the unknown algorithm tag never reads a previously cached value:
its result is the cache-free value in every cache state. -/
theorem asertCached_missing_bypass (P : Params) (c : ChainIdx) (hdr : Block)
    (s : TargetCache) (halgo : getAlgoType hdr.nVersion = -1) :
    (averageTargetASERTCached c hdr P s).1 = averageTargetASERT c hdr P := by
  simp only [averageTargetASERTCached, averageTargetASERT]
  by_cases h1 : c = []
  · simp only [if_pos h1]
  · simp only [if_neg h1]
    by_cases h2 : (selPrev (decide (getAlgoType hdr.nVersion = -1)) (isProofOfStake hdr)
        (getAlgoType hdr.nVersion) c).tail = []
    · simp only [if_pos h2]
    · simp only [if_neg h2]
      by_cases h3 : (selPrev (decide (getAlgoType hdr.nVersion = -1)) (isProofOfStake hdr)
          (getAlgoType hdr.nVersion) (selPrev (decide (getAlgoType hdr.nVersion = -1))
            (isProofOfStake hdr) (getAlgoType hdr.nVersion) c).tail).tail = []
      · simp only [if_pos h3]
      · simp only [if_neg h3]
        by_cases h4 : ((c.length : Int) < 0)
        · simp only [if_pos h4]
        · simp only [if_neg h4]
          rw [asertRefTargetCached_missing _ _ _ _ _ _ _ _ _ _ _ (decide_eq_true halgo)]

/-- C2: the rolling-average target cache inside AverageTargetASERT is
observationally transparent: after any prior sequence of cached calls on a
chain, a further call returns exactly the value of the cache-free recomputation;
in the averaging regime a window-index or algorithm mismatch with the cached key
forces a recomputation; and a call with the unknown algorithm tag (-1) returns
the cache-free value in every cache state, never using a previously cached
value. -/
theorem asert_target_cache_transparent (P : Params) (ch : ChainIdx) :
    (∀ (calls : List (Nat × Block)) (k : Nat) (hdr : Block),
      (averageTargetASERTCached (ch.drop k) hdr P (runTargetCache P ch calls)).1
        = averageTargetASERT (ch.drop k) hdr P)
    ∧ (∀ (b f : Bool) (algo : Int) (L : Nat) (fMD : Bool) (N nH nHD : Nat)
        (p r : ChainIdx) (s : TargetCache), asertAvgGuard N nH nHD →
        (s.nTargetCacheHeight ≠ ((nHD / N : Nat) : Int) ∨ s.nTargetCacheAlgo ≠ algo) →
        (asertRefTargetCached b f algo L fMD N nH nHD p r s).1
          = asertRecomputeAvg b f algo L fMD N nHD p)
    ∧ (∀ (c : ChainIdx) (hdr : Block) (s : TargetCache),
        getAlgoType hdr.nVersion = -1 →
        (averageTargetASERTCached c hdr P s).1 = averageTargetASERT c hdr P) := by
  refine ⟨fun calls k hdr => ?_, asertRefTargetCached_mismatch, asertCached_missing_bypass P⟩
  exact (asertCached_call_correct P ch (List.drop_suffix k ch) hdr _
    (runTargetCache_inv P ch calls)).1

/-- Witness for the cache-transparency theorem at concrete inputs. -/
theorem asert_target_cache_transparent_witness :
    ((averageTargetASERTCached ([] : ChainIdx) ⟨0, 0, 0, 0⟩ mainParams
        (runTargetCache mainParams [] [])).1
      = averageTargetASERT ([] : ChainIdx) ⟨0, 0, 0, 0⟩ mainParams)
    ∧ (asertAvgGuard 1 1 1
        ∧ (initTargetCache.nTargetCacheHeight ≠ ((1 / 1 : Nat) : Int)
            ∨ initTargetCache.nTargetCacheAlgo ≠ (0 : Int))
        ∧ (asertRefTargetCached false false 0 7 false 1 1 1 [] [] initTargetCache).1
            = asertRecomputeAvg false false 0 7 false 1 1 [])
    ∧ (getAlgoType (0 : Nat) = -1
        ∧ (averageTargetASERTCached ([] : ChainIdx) ⟨0, 0, 0, 0⟩ mainParams initTargetCache).1
            = averageTargetASERT ([] : ChainIdx) ⟨0, 0, 0, 0⟩ mainParams) :=
  ⟨(asert_target_cache_transparent mainParams []).1 [] 0 ⟨0, 0, 0, 0⟩,
   ⟨by decide, by decide,
    (asert_target_cache_transparent mainParams []).2.1 false false 0 7 false 1 1 1 [] []
      initTargetCache (by decide) (by decide)⟩,
   by decide,
   (asert_target_cache_transparent mainParams []).2.2 [] ⟨0, 0, 0, 0⟩ initTargetCache
     (by decide)⟩

/-- C1: CheckProofOfWork is a total boolean predicate on the compact bits word:
it accepts exactly when the decoded target is neither negative nor overflowed
nor zero, lies within the powLimit ceiling of the algorithm (the SHA256 ceiling
for the unknown tag -1), the algorithm tag is valid and allowed (-1 ≤ algo,
algo ≠ ALGO_POS, algo < ALGO_COUNT), and the hash does not exceed the decoded
target. -/
theorem check_proof_of_work_iff (hash nBits : Nat) (algo : Int) (P : Params) :
    checkProofOfWork hash nBits algo P = true ↔
      (setCompactBase256Negative nBits = false ∧ setCompactBase256Overflow nBits = false
        ∧ setCompactBase256 nBits ≠ 0
        ∧ setCompactBase256 nBits ≤ P.powLimitAt (if algo = -1 then 1 else algo)
        ∧ -1 ≤ algo ∧ algo ≠ 0 ∧ algo < 2
        ∧ hash ≤ setCompactBase256 nBits) := by
  simp only [checkProofOfWork]
  generalize P.powLimitAt (if algo = -1 then 1 else algo) = L
  split
  · rename_i h
    simp only [Bool.or_eq_true, decide_eq_true_eq] at h
    simp only [Bool.false_eq_true, false_iff, not_and]
    intro h1 h2 h3 h4 h5 h6 h7
    rcases h with ((((((ha | hb) | hc) | hd) | he) | hf) | hg)
    · rw [h1] at ha
      exact absurd ha (by simp)
    · exact absurd hb h3
    · rw [h2] at hc
      exact absurd hc (by simp)
    · omega
    · omega
    · omega
    · omega
  · rename_i h
    simp only [Bool.or_eq_true, decide_eq_true_eq, not_or] at h
    obtain ⟨⟨⟨⟨⟨⟨h1, h2⟩, h3⟩, h4⟩, h5⟩, h6⟩, h7⟩ := h
    split
    · rename_i hlt
      simp only [Bool.false_eq_true, false_iff, not_and]
      intro _ _ _ _ _ _ _ h8
      omega
    · rename_i hlt
      exact iff_of_true rfl ⟨Bool.not_eq_true _ ▸ h1, Bool.not_eq_true _ ▸ h3, h2,
        not_lt.mp h7, by omega, h5, by omega, not_lt.mp hlt⟩

/-- C7: a null previous-block index is the genesis bootstrap default, not an
error: GetNextWorkRequired, WeightedTargetExponentialMovingAverage and
AverageTargetASERT all return the compact encoding of the per-algorithm powLimit
ceiling (the selection the respective function uses for the candidate header);
as pure functions over the chain view they cannot mutate it. -/
theorem null_prev_returns_ceiling (pblock : Block) (P : Params) :
    getNextWorkRequired [] pblock P
      = getCompactBase256 (P.powLimitAt
          (if getAlgoType pblock.nVersion = -1 then 1 else getAlgoType pblock.nVersion))
    ∧ weightedTargetExponentialMovingAverage [] pblock P
      = getCompactBase256 (if getAlgoType pblock.nVersion = -1
          then (if isProofOfStake pblock then P.powLimitPoS else P.powLimitPoW)
          else P.powLimitAt (getAlgoType pblock.nVersion))
    ∧ averageTargetASERT [] pblock P
      = getCompactBase256 (if getAlgoType pblock.nVersion = -1
          then (if isProofOfStake pblock then P.powLimitPoS else P.powLimitPoW)
          else P.powLimitAt (getAlgoType pblock.nVersion)) := by
  refine ⟨?_, ?_, ?_⟩
  · simp [getNextWorkRequired]
  · simp [weightedTargetExponentialMovingAverage]
  · simp [averageTargetASERT]

/-- C5: CalculateNextWorkRequired returns the previous bits unchanged under
fPowNoRetargeting; otherwise it clamps the measured timespan to the interval
[nPowTargetTimespan/4, nPowTargetTimespan*4], scales the previous target
linearly by the clamped timespan over the expected timespan, clamps the result
to the powLimit ceiling, and the returned compact value never encodes a target
above that ceiling. -/
theorem calculate_next_work_clamped (c : ChainIdx) (t : Int) (P : Params) :
    (P.fPowNoRetargeting = true → calculateNextWorkRequired c t P = idxBits c)
    ∧ (P.fPowNoRetargeting = false →
        calculateNextWorkRequired c t P
          = getCompactBase256 (min P.powLimitPoW
              (setCompactBase256 (idxBits c)
                * (max ((P.nPowTargetTimespan / 4 : Nat) : Int)
                    (min ((P.nPowTargetTimespan * 4 : Nat) : Int)
                      ((blockTime c : Int) - t))).toNat % TWO256
                / P.nPowTargetTimespan))
        ∧ setCompactBase256 (calculateNextWorkRequired c t P) ≤ P.powLimitPoW) := by
  constructor
  · intro h
    simp [calculateNextWorkRequired, h]
  · intro h
    have hlohi : ((P.nPowTargetTimespan / 4 : Nat) : Int) ≤ ((P.nPowTargetTimespan * 4 : Nat) : Int) := by
      have h1 : P.nPowTargetTimespan / 4 ≤ P.nPowTargetTimespan * 4 :=
        le_trans (Nat.div_le_self _ _) (by omega)
      exact_mod_cast h1
    have hclamp : (if (blockTime c : Int) - t < ((P.nPowTargetTimespan / 4 : Nat) : Int)
          then ((P.nPowTargetTimespan / 4 : Nat) : Int)
          else if ((P.nPowTargetTimespan * 4 : Nat) : Int) < (blockTime c : Int) - t
            then ((P.nPowTargetTimespan * 4 : Nat) : Int) else (blockTime c : Int) - t)
        = max ((P.nPowTargetTimespan / 4 : Nat) : Int)
            (min ((P.nPowTargetTimespan * 4 : Nat) : Int) ((blockTime c : Int) - t)) := by
      split_ifs <;> omega
    have hmain : calculateNextWorkRequired c t P
        = getCompactBase256 (min P.powLimitPoW
            (setCompactBase256 (idxBits c)
              * (max ((P.nPowTargetTimespan / 4 : Nat) : Int)
                  (min ((P.nPowTargetTimespan * 4 : Nat) : Int)
                    ((blockTime c : Int) - t))).toNat % TWO256
              / P.nPowTargetTimespan)) := by
      simp only [calculateNextWorkRequired, h, Bool.false_eq_true, if_false, hclamp]
      congr 1
      split_ifs <;> omega
    refine ⟨hmain, ?_⟩
    rw [hmain]
    exact le_trans (decode_encode_le _) (min_le_left _ _)

/-- Witness for the CalculateNextWorkRequired theorem at concrete inputs. -/
theorem calculate_next_work_clamped_witness :
    (regParams.fPowNoRetargeting = true
      ∧ calculateNextWorkRequired [⟨1, 100, 0x1d00ffff, 7⟩] 0 regParams
          = idxBits [⟨1, 100, 0x1d00ffff, 7⟩])
    ∧ (mainParams.fPowNoRetargeting = false
      ∧ setCompactBase256 (calculateNextWorkRequired [⟨1, 100, 0x1d00ffff, 7⟩] 0 mainParams)
          ≤ mainParams.powLimitPoW) :=
  ⟨⟨rfl, (calculate_next_work_clamped [⟨1, 100, 0x1d00ffff, 7⟩] 0 regParams).1 rfl⟩,
   rfl, ((calculate_next_work_clamped [⟨1, 100, 0x1d00ffff, 7⟩] 0 mainParams).2 rfl).2⟩

/-- C4: WeightedTargetExponentialMovingAverage with a known algorithm tag: the
bootstrap cases (no chain, or no two previous same-algorithm blocks) return the
per-algorithm ceiling; otherwise, with N = timespan / (2 * spacing) (spacing
600 s for proof-of-work, nPowTargetSpacing for proof-of-stake), the new target
is the previous same-algorithm block's decoded target times
max(1, (N-1)*spacing + actual spacing), divided by N*spacing in 512-bit
precision, with the ceiling's compact encoding returned when the 512-bit result
exceeds the ceiling or truncates to zero. -/
theorem wtema_formula (c : ChainIdx) (pblock : Block) (P : Params)
    (halgo : getAlgoType pblock.nVersion ≠ -1) :
    ((c = [] ∨ (getLastBlockIndexForAlgo c (getAlgoType pblock.nVersion)).tail = []
        ∨ (getLastBlockIndexForAlgo
            (getLastBlockIndexForAlgo c (getAlgoType pblock.nVersion)).tail
            (getAlgoType pblock.nVersion)).tail = []) →
      weightedTargetExponentialMovingAverage c pblock P
        = getCompactBase256 (P.powLimitAt (getAlgoType pblock.nVersion)))
    ∧ (∀ (prev pprev : ChainIdx) (spacing N numer denom : Nat),
        prev = getLastBlockIndexForAlgo c (getAlgoType pblock.nVersion) →
        pprev = getLastBlockIndexForAlgo prev.tail (getAlgoType pblock.nVersion) →
        spacing = (if isProofOfStake pblock then P.nPowTargetSpacing else 600) →
        N = P.nPowTargetTimespan / (2 * spacing) →
        numer = (max (((N : Int) - 1) * (spacing : Int)
            + wrap32 ((blockTime prev : Int) - (blockTime pprev : Int))) 1).toNat →
        denom = N * spacing →
        c ≠ [] → prev.tail ≠ [] → pprev.tail ≠ [] →
        weightedTargetExponentialMovingAverage c pblock P
          = if P.powLimitAt (getAlgoType pblock.nVersion)
                < mul512 (setCompactBase256 (idxBits prev)) numer / denom
              ∨ trim256 (mul512 (setCompactBase256 (idxBits prev)) numer / denom) = 0
            then getCompactBase256 (P.powLimitAt (getAlgoType pblock.nVersion))
            else getCompactRoundedBase256
              (trim256 (mul512 (setCompactBase256 (idxBits prev)) numer / denom))) := by
  constructor
  · intro hd
    simp only [weightedTargetExponentialMovingAverage, if_neg halgo]
    rcases hd with h1 | h2 | h3
    · rw [if_pos h1]
    · by_cases h1 : c = []
      · rw [if_pos h1]
      · rw [if_neg h1, if_pos h2]
    · by_cases h1 : c = []
      · rw [if_pos h1]
      · rw [if_neg h1]
        by_cases h2 : (getLastBlockIndexForAlgo c (getAlgoType pblock.nVersion)).tail = []
        · rw [if_pos h2]
        · rw [if_neg h2, if_pos h3]
  · intro prev pprev spacing N numer denom hprev hpprev hspacing hN hnumer hdenom h1 h2 h3
    subst hprev hpprev hspacing hN hnumer hdenom
    simp only [weightedTargetExponentialMovingAverage, if_neg halgo, if_neg h1, if_neg h2,
      if_neg h3, show (10 * 60 : Nat) = 600 from rfl, Nat.mul_comm]

/-- Witness for the WTEMA formula theorem at concrete inputs. -/
theorem wtema_formula_witness :
    (getAlgoType ((2 : Nat) <<< 29) ≠ (-1 : Int))
    ∧ weightedTargetExponentialMovingAverage [] ⟨2 <<< 29, 1000, 0x1c0fffff, 7⟩ mainParams
        = getCompactBase256 (mainParams.powLimitAt (getAlgoType ((2 : Nat) <<< 29)))
    ∧ weightedTargetExponentialMovingAverage wchain3 ⟨2 <<< 29, 1240, 0x1c0fffff, 7⟩ mainParams
        = (if mainParams.powLimitAt (getAlgoType ((2 : Nat) <<< 29))
              < mul512 (setCompactBase256 (idxBits wchain3)) 21080 / 21600
            ∨ trim256 (mul512 (setCompactBase256 (idxBits wchain3)) 21080 / 21600) = 0
          then getCompactBase256 (mainParams.powLimitAt (getAlgoType ((2 : Nat) <<< 29)))
          else getCompactRoundedBase256
            (trim256 (mul512 (setCompactBase256 (idxBits wchain3)) 21080 / 21600))) :=
  ⟨by decide,
   (wtema_formula [] ⟨2 <<< 29, 1000, 0x1c0fffff, 7⟩ mainParams (by decide)).1 (Or.inl rfl),
   (wtema_formula wchain3 ⟨2 <<< 29, 1240, 0x1c0fffff, 7⟩ mainParams (by decide)).2
     wchain3 wchain3.tail 600 36 21080 21600 (by decide) (by decide) (by decide) (by decide)
     (by decide) (by decide) (by decide) (by decide) (by decide)⟩

/-- C6 (corrected): the minimum-difficulty relaxation triggers when the
candidate timestamp is more than 30 minutes (not twice the target spacing)
ahead of the previous same-algorithm block of height above 10, returning the
floor-minus-one compact value; when that previous block itself used the
floor-minus-one value, the walk back skips adjacent min-difficulty blocks and
blocks of a different algorithm and the reached predecessor's bits are
returned. -/
theorem min_diff_rule_corrected (c : ChainIdx) (pblock : Block) (P : Params)
    (L : Nat) (algo : Int) (prev : ChainIdx)
    (halgoEq : algo = getAlgoType pblock.nVersion)
    (hL : L = getCompactBase256 (P.powLimitAt algo))
    (hprev : prev = getLastBlockIndexForAlgo c algo)
    (hc : c ≠ []) (hnr : P.fPowNoRetargeting = false)
    (hmd : P.fPowAllowMinDifficultyBlocks = true)
    (halgo : algo ≠ -1) :
    ((10 < idxHeight prev ∧ (blockTime prev : Int) + 30 * 60 < (pblock.nTime : Int)) →
      getNextWorkRequired c pblock P = L - 1)
    ∧ (∀ pindex pprev2 : ChainIdx,
        pindex = minDiffWalk prev algo (L - 1) →
        pprev2 = getLastBlockIndexForAlgo pindex.tail algo →
        ¬(10 < idxHeight prev ∧ (blockTime prev : Int) + 30 * 60 < (pblock.nTime : Int)) →
        prev.tail ≠ [] → idxBits prev = L - 1 →
        pprev2 ≠ [] → 10 < idxHeight pprev2 →
        getNextWorkRequired c pblock P
          = if idxBits pprev2 ≠ L - 1 then idxBits pprev2 else idxBits pindex)
    ∧ (∀ (d : ChainIdx) (a : Int) (m : Nat),
        (∃ pre : List Block, d = pre ++ minDiffWalk d a m
          ∧ ∀ b ∈ pre, b.nBits = m ∨ getAlgoType b.nVersion ≠ a)
        ∧ (d ≠ [] → (minDiffWalk d a m).tail = []
            ∨ (idxBits (minDiffWalk d a m) ≠ m
              ∧ getAlgoType (idxVersion (minDiffWalk d a m)) = a))) := by
  subst halgoEq hL hprev
  refine ⟨?_, ?_, ?_⟩
  · intro ⟨hh, ht⟩
    simp only [getNextWorkRequired, if_neg halgo]
    rw [if_neg (by simp [hc, hnr]), if_pos ⟨by rw [hmd], halgo⟩, if_pos ⟨hh, ht⟩]
  · intro pindex pprev2 hpind hpprev2 hAB h2 hbits hpp2ne hpp2h
    subst hpind hpprev2
    simp only [getNextWorkRequired, if_neg halgo]
    rw [if_neg (by simp [hc, hnr]), if_pos ⟨by rw [hmd], halgo⟩, if_neg hAB,
      if_pos ⟨h2, hbits⟩, if_pos ⟨hpp2ne, hpp2h⟩]
  · intro d a m
    induction d with
    | nil => exact ⟨⟨[], rfl, by simp⟩, fun h => absurd rfl h⟩
    | cons b rest ih =>
      by_cases hcond : rest ≠ [] ∧ (b.nBits = m ∨ getAlgoType b.nVersion ≠ a)
      · rw [show minDiffWalk (b :: rest) a m = minDiffWalk rest a m from by
          rw [minDiffWalk, if_pos hcond]]
        obtain ⟨⟨pre, hpre, hall⟩, hterm⟩ := ih
        refine ⟨⟨b :: pre, by rw [List.cons_append, ← hpre], ?_⟩, fun _ => hterm hcond.1⟩
        intro x hx
        rcases List.mem_cons.mp hx with hx | hx
        · rw [hx]
          exact hcond.2
        · exact hall x hx
      · rw [show minDiffWalk (b :: rest) a m = b :: rest from by
          rw [minDiffWalk, if_neg hcond]]
        refine ⟨⟨[], rfl, by simp⟩, fun _ => ?_⟩
        push_neg at hcond
        rcases eq_or_ne rest [] with hr | hr
        · rw [hr]
          exact Or.inl rfl
        · have hb := hcond hr
          push_neg at hb
          exact Or.inr ⟨hb.1, hb.2⟩

/-- C6 counterexample: a proof-of-work candidate 1500 s past the previous
same-algorithm block of height above 10 is more than twice the 600 s target
spacing late, yet GetNextWorkRequired does not return the floor-minus-one
value, because the code threshold is 30 minutes. -/
theorem min_diff_threshold_counterexample :
    mainParams.fPowAllowMinDifficultyBlocks = true
    ∧ getAlgoType cblk14.nVersion = 1
    ∧ 10 < idxHeight (getLastBlockIndexForAlgo cchain14 1)
    ∧ (blockTime (getLastBlockIndexForAlgo cchain14 1) : Int) + 2 * (10 * 60)
        < (cblk14.nTime : Int)
    ∧ getNextWorkRequired cchain14 cblk14 mainParams
        ≠ getCompactBase256 (mainParams.powLimitAt 1) - 1 :=
  ⟨rfl, by decide, by decide, by decide, by decide⟩

/-- Witness for the corrected minimum-difficulty theorem at concrete inputs. -/
theorem min_diff_rule_corrected_witness :
    (getNextWorkRequired cchain14 ⟨2 <<< 29, 3940, 0x1c0fffff, 7⟩ mainParams
        = getCompactBase256 (mainParams.powLimitAt 1) - 1)
    ∧ (getNextWorkRequired cchain14 cblk14 mainParams
        = if idxBits (getLastBlockIndexForAlgo
              (minDiffWalk (getLastBlockIndexForAlgo cchain14 1) 1
                (getCompactBase256 (mainParams.powLimitAt 1) - 1)).tail 1)
            ≠ getCompactBase256 (mainParams.powLimitAt 1) - 1
          then idxBits (getLastBlockIndexForAlgo
              (minDiffWalk (getLastBlockIndexForAlgo cchain14 1) 1
                (getCompactBase256 (mainParams.powLimitAt 1) - 1)).tail 1)
          else idxBits (minDiffWalk (getLastBlockIndexForAlgo cchain14 1) 1
                (getCompactBase256 (mainParams.powLimitAt 1) - 1)))
    ∧ (∃ pre : List Block, cchain14 = pre ++ minDiffWalk cchain14 1 503382014
        ∧ ∀ b ∈ pre, b.nBits = 503382014 ∨ getAlgoType b.nVersion ≠ 1) :=
  ⟨(min_diff_rule_corrected cchain14 ⟨2 <<< 29, 3940, 0x1c0fffff, 7⟩ mainParams
      (getCompactBase256 (mainParams.powLimitAt 1)) 1 (getLastBlockIndexForAlgo cchain14 1)
      (by decide) rfl rfl (by decide) rfl rfl (by decide)).1 ⟨by decide, by decide⟩,
   (min_diff_rule_corrected cchain14 cblk14 mainParams
      (getCompactBase256 (mainParams.powLimitAt 1)) 1 (getLastBlockIndexForAlgo cchain14 1)
      (by decide) rfl rfl (by decide) rfl rfl (by decide)).2.1 _ _ rfl rfl (by decide)
      (by decide) (by decide) (by decide) (by decide),
   ((min_diff_rule_corrected cchain14 cblk14 mainParams
      (getCompactBase256 (mainParams.powLimitAt 1)) 1 (getLastBlockIndexForAlgo cchain14 1)
      (by decide) rfl rfl (by decide) rfl rfl (by decide)).2.2 cchain14 1 503382014).1⟩

/-- A multiple of 2^(mask+1) has no bits in common with mask. -/
theorem land_eq_zero_of_mod (mask u : Nat) (hu : u % 2 ^ (mask + 1) = 0) :
    u &&& mask = 0 := by
  have hm : mask < 2 ^ (mask + 1) :=
    lt_of_lt_of_le (Nat.lt_two_pow mask) (Nat.pow_le_pow_right (by norm_num) (Nat.le_succ mask))
  apply Nat.eq_of_testBit_eq
  intro i
  rw [Nat.testBit_land, Nat.zero_testBit]
  rcases lt_or_le i (mask + 1) with hi | hi
  · have h1 : u.testBit i = (u % 2 ^ (mask + 1)).testBit i := by
      rw [Nat.testBit_mod_two_pow, decide_eq_true hi, Bool.true_and]
    rw [h1, hu, Nat.zero_testBit, Bool.false_and]
  · rw [Nat.testBit_eq_false_of_lt
      (lt_of_lt_of_le hm (Nat.pow_le_pow_right (by norm_num) hi)), Bool.and_false]

/-- The stake time-slot loop lands on the slot grid, never moves backwards, and
stops at the first on-grid time. -/
theorem slotUpNat_spec (mask : Nat) : ∀ t : Nat, (slotUpNat mask t) &&& mask = 0
    ∧ t ≤ slotUpNat mask t
    ∧ ∀ u, t ≤ u → u &&& mask = 0 → slotUpNat mask t ≤ u := by
  have key : ∀ n t, (if t &&& mask = 0 then 0 else 2 ^ (mask + 1) - t % 2 ^ (mask + 1)) ≤ n →
      (slotUpNat mask t) &&& mask = 0
      ∧ t ≤ slotUpNat mask t
      ∧ ∀ u, t ≤ u → u &&& mask = 0 → slotUpNat mask t ≤ u := by
    intro n
    induction n with
    | zero =>
      intro t hle
      by_cases h : t &&& mask = 0
      · rw [slotUpNat, if_pos h]
        exact ⟨h, le_refl t, fun u hu _ => hu⟩
      · rw [if_neg h] at hle
        have hlt : t % 2 ^ (mask + 1) < 2 ^ (mask + 1) := Nat.mod_lt t (by positivity)
        omega
    | succ n ih =>
      intro t hle
      by_cases h : t &&& mask = 0
      · rw [slotUpNat, if_pos h]
        exact ⟨h, le_refl t, fun u hu _ => hu⟩
      · rw [if_neg h] at hle
        have hlt : t % 2 ^ (mask + 1) < 2 ^ (mask + 1) := Nat.mod_lt t (by positivity)
        have hmeas : (if (t + 1) &&& mask = 0 then 0
            else 2 ^ (mask + 1) - (t + 1) % 2 ^ (mask + 1)) ≤ n := by
          by_cases h2 : (t + 1) &&& mask = 0
          · rw [if_pos h2]
            omega
          · rw [if_neg h2]
            have hwrap : t % 2 ^ (mask + 1) ≠ 2 ^ (mask + 1) - 1 := by
              intro hw
              apply h2
              apply land_eq_zero_of_mod
              have hone : 1 % 2 ^ (mask + 1) = 1 := Nat.mod_eq_of_lt (by
                have h2L : 2 ≤ 2 ^ (mask + 1) := by
                  calc (2 : Nat) = 2 ^ 1 := rfl
                    _ ≤ 2 ^ (mask + 1) := Nat.pow_le_pow_right (by norm_num) (by omega)
                omega)
              rw [Nat.add_mod, hone, hw]
              have h3 : 2 ^ (mask + 1) - 1 + 1 = 2 ^ (mask + 1) := by omega
              rw [h3, Nat.mod_self]
            have h1 : (t + 1) % 2 ^ (mask + 1) = t % 2 ^ (mask + 1) + 1 := by
              have hone : 1 % 2 ^ (mask + 1) = 1 := Nat.mod_eq_of_lt (by
                have h2L : 2 ≤ 2 ^ (mask + 1) := by
                  calc (2 : Nat) = 2 ^ 1 := rfl
                    _ ≤ 2 ^ (mask + 1) := Nat.pow_le_pow_right (by norm_num) (by omega)
                omega)
              rw [Nat.add_mod, hone]
              exact Nat.mod_eq_of_lt (by omega)
            rw [h1]
            omega
        obtain ⟨ha, hb, hc⟩ := ih (t + 1) hmeas
        rw [slotUpNat, if_neg h]
        refine ⟨ha, le_trans (Nat.le_succ t) hb, fun u hu hmask => ?_⟩
        have hne : u ≠ t := by
          intro he
          rw [he] at hmask
          exact h hmask
        exact hc u (by omega) hmask
  intro t
  exact key (if t &&& mask = 0 then 0 else 2 ^ (mask + 1) - t % 2 ^ (mask + 1)) t (le_refl _)

/-- C9: a candidate output failing the minimum-age or minimum-depth
precondition is skipped: the iteration outcome is skip for every kernel-check
function (so the kernel hash check is never consulted for it), the loop simply
continues with the remaining candidates, and no error is raised; and the
candidate block timestamp is first advanced to the stake time-slot grid — the
least time at or after the initial block time with all masked bits zero —
before the candidate loop runs. -/
theorem stake_preconditions_skip (env : StakeEnv) (P : Params) (nHeight t : Nat)
    (c : StakeCoin) (coin : CoinInfo) (nTimeBlockFrom : Nat)
    (htip : env.chainTipOk = true)
    (hcoin : env.getCoin c = some coin)
    (hfrom : env.chainAtTime coin.nHeight = some nTimeBlockFrom)
    (hpre : (nTimeBlockFrom : Int) + P.nStakeMinAge > (t : Int)
      ∨ (nHeight : Int) - (coin.nHeight : Int) < P.nStakeMinDepth) :
    (∀ kern, processCandidate kern env P nHeight t c = .skip)
    ∧ (∀ kern rest, createCoinStakeLoop kern env P nHeight t (c :: rest)
        = createCoinStakeLoop kern env P nHeight t rest)
    ∧ (∀ (kern : StakeCoin → Nat → Bool) (selectOk : Bool) (blockTime0 : Nat)
        (coins : List StakeCoin),
        createCoinStake kern env P nHeight selectOk blockTime0 coins
          = (if selectOk = false then false
            else createCoinStakeLoop kern env P nHeight
              (slotUpNat P.nStakeTimestampMask blockTime0) coins)
        ∧ slotUpNat P.nStakeTimestampMask blockTime0 &&& P.nStakeTimestampMask = 0
        ∧ blockTime0 ≤ slotUpNat P.nStakeTimestampMask blockTime0
        ∧ ∀ u, blockTime0 ≤ u → u &&& P.nStakeTimestampMask = 0
            → slotUpNat P.nStakeTimestampMask blockTime0 ≤ u) := by
  have hskip : ∀ kern, processCandidate kern env P nHeight t c = .skip := by
    intro kern
    simp only [processCandidate, htip, hcoin, hfrom]
    rw [if_neg (by simp), if_pos hpre]
  refine ⟨hskip, fun kern rest => ?_, fun kern selectOk blockTime0 coins => ?_⟩
  · simp only [createCoinStakeLoop, hskip kern]
  · exact ⟨rfl, (slotUpNat_spec P.nStakeTimestampMask blockTime0).1,
      (slotUpNat_spec P.nStakeTimestampMask blockTime0).2.1,
      (slotUpNat_spec P.nStakeTimestampMask blockTime0).2.2⟩

/-- C10: once every precondition holds and the kernel check succeeds, a failure
of the coin-age computation is a hard error: the iteration outcome is fail and
CreateCoinStake's candidate loop returns false immediately, whatever candidates
remain. -/
theorem coin_age_failure_hard_error (kern : StakeCoin → Nat → Bool) (env : StakeEnv)
    (P : Params) (nHeight t : Nat) (c : StakeCoin) (coin : CoinInfo) (nTimeBlockFrom : Nat)
    (htip : env.chainTipOk = true)
    (hcoin : env.getCoin c = some coin)
    (hfrom : env.chainAtTime coin.nHeight = some nTimeBlockFrom)
    (hpre : ¬((nTimeBlockFrom : Int) + P.nStakeMinAge > (t : Int)
      ∨ (nHeight : Int) - (coin.nHeight : Int) < P.nStakeMinDepth))
    (hkern : kern c t = true)
    (hts : ¬(t ≤ env.medianTimePast ∨ t &&& P.nStakeTimestampMask ≠ 0
      ∨ (env.adjustedTime + MAX_FUTURE_BLOCK_TIME < t ∧ env.regtest = false)))
    (hscript : env.scriptOk c = true)
    (hage : env.getCoinAge c t = none) :
    processCandidate kern env P nHeight t c = .fail
    ∧ ∀ rest, createCoinStakeLoop kern env P nHeight t (c :: rest) = false := by
  have hfail : processCandidate kern env P nHeight t c = .fail := by
    simp only [processCandidate, htip, hcoin, hfrom, hage]
    rw [if_neg (by simp), if_neg hpre, if_neg (by simp [hkern]), if_neg hts,
      if_neg (by simp [hscript])]
  exact ⟨hfail, fun rest => by simp only [createCoinStakeLoop, hfail]⟩

/-- Witness for the stake precondition-skip theorem at concrete inputs. -/
theorem stake_preconditions_skip_witness :
    processCandidate (fun _ _ => true) wenv mainParams 1000 43250 ⟨1, 0, 10⟩ = .skip
    ∧ createCoinStakeLoop (fun _ _ => true) wenv mainParams 1000 43250 [⟨1, 0, 10⟩]
        = createCoinStakeLoop (fun _ _ => true) wenv mainParams 1000 43250 []
    ∧ slotUpNat mainParams.nStakeTimestampMask 43250 &&& mainParams.nStakeTimestampMask = 0
    ∧ 43250 ≤ slotUpNat mainParams.nStakeTimestampMask 43250 :=
  ⟨(stake_preconditions_skip wenv mainParams 1000 43250 ⟨1, 0, 10⟩ ⟨5⟩ 100 rfl rfl rfl
      (by decide)).1 (fun _ _ => true),
   (stake_preconditions_skip wenv mainParams 1000 43250 ⟨1, 0, 10⟩ ⟨5⟩ 100 rfl rfl rfl
      (by decide)).2.1 (fun _ _ => true) [],
   ((stake_preconditions_skip wenv mainParams 1000 43250 ⟨1, 0, 10⟩ ⟨5⟩ 100 rfl rfl rfl
      (by decide)).2.2 (fun _ _ => true) true 43250 []).2.1,
   ((stake_preconditions_skip wenv mainParams 1000 43250 ⟨1, 0, 10⟩ ⟨5⟩ 100 rfl rfl rfl
      (by decide)).2.2 (fun _ _ => true) true 43250 []).2.2.1⟩

/-- Witness for the coin-age hard-error theorem at concrete inputs. -/
theorem coin_age_failure_hard_error_witness :
    processCandidate (fun _ _ => true) wenv mainParams 1000 50000 ⟨1, 0, 10⟩ = .fail
    ∧ createCoinStakeLoop (fun _ _ => true) wenv mainParams 1000 50000
        [⟨1, 0, 10⟩, ⟨2, 1, 20⟩] = false :=
  ⟨(coin_age_failure_hard_error (fun _ _ => true) wenv mainParams 1000 50000 ⟨1, 0, 10⟩ ⟨5⟩ 100
      rfl rfl rfl (by decide) rfl (by decide) rfl rfl).1,
   (coin_age_failure_hard_error (fun _ _ => true) wenv mainParams 1000 50000 ⟨1, 0, 10⟩ ⟨5⟩ 100
      rfl rfl rfl (by decide) rfl (by decide) rfl rfl).2 [⟨2, 1, 20⟩]⟩

/-- An integer multiple of 2^(mask+1) has no bits in common with mask. -/
theorem int_land_eq_zero_of_emod (mask : Nat) (u : Int)
    (hu : u % ((2 ^ (mask + 1) : Nat) : Int) = 0) : Int.land u mask = 0 := by
  have hm : mask < 2 ^ (mask + 1) :=
    lt_of_lt_of_le (Nat.lt_two_pow mask) (Nat.pow_le_pow_right (by norm_num) (Nat.le_succ mask))
  set L := mask + 1 with hLdef
  have hdvd : ((2 ^ L : Nat) : Int) ∣ u := Int.dvd_of_emod_eq_zero hu
  cases u with
  | ofNat n =>
    have hn : 2 ^ L ∣ n := by
      rw [Int.ofNat_eq_natCast] at hdvd
      exact_mod_cast hdvd
    obtain ⟨k, rfl⟩ := hn
    have hland0 : 2 ^ L * k &&& mask = 0 := by
      apply Nat.eq_of_testBit_eq
      intro i
      rw [Nat.testBit_land, Nat.zero_testBit]
      rcases lt_or_le i L with hi | hi
      · have h1 : (2 ^ L * k).testBit i = (2 ^ L * k % 2 ^ L).testBit i := by
          rw [Nat.testBit_mod_two_pow, decide_eq_true hi, Bool.true_and]
        rw [h1, Nat.mul_mod_right, Nat.zero_testBit, Bool.false_and]
      · rw [Nat.testBit_eq_false_of_lt
          (lt_of_lt_of_le hm (Nat.pow_le_pow_right (by norm_num) hi)), Bool.and_false]
    calc Int.land (Int.ofNat (2 ^ L * k)) ↑mask = Int.ofNat (2 ^ L * k &&& mask) := rfl
      _ = 0 := by rw [hland0]; rfl
  | negSucc n =>
    have hn : 2 ^ L ∣ n + 1 := by
      have h1 : ((2 ^ L : Nat) : Int) ∣ ((n + 1 : Nat) : Int) := by
        have h2 : ((n + 1 : Nat) : Int) = -Int.negSucc n := by
          push_cast [Int.negSucc_eq]
          ring
        rw [h2]
        exact dvd_neg.mpr hdvd
      exact_mod_cast h1
    have hres : Nat.ldiff mask n = 0 := by
      apply Nat.eq_of_testBit_eq
      intro i
      rw [Nat.testBit_ldiff, Nat.zero_testBit]
      rcases lt_or_le i L with hi | hi
      · have hone : 0 < 2 ^ L := Nat.pos_pow_of_pos L (by norm_num)
        obtain ⟨k, hk⟩ := hn
        have hk1 : 1 ≤ k := by
          rcases Nat.eq_zero_or_pos k with h0 | h0
          · rw [h0, Nat.mul_zero] at hk
            omega
          · exact h0
        have hn' : n = 2 ^ L * (k - 1) + (2 ^ L - 1) := by
          have h4 : k = (k - 1) + 1 := by omega
          have h3 : 2 ^ L * k = 2 ^ L * (k - 1) + 2 ^ L := by
            conv_lhs => rw [h4]
            rw [Nat.mul_succ]
          omega
        have hmod : n % 2 ^ L = 2 ^ L - 1 := by
          rw [hn', Nat.mul_add_mod]
          exact Nat.mod_eq_of_lt (by omega)
        have hbit : n.testBit i = true := by
          have h1 : n.testBit i = (n % 2 ^ L).testBit i := by
            rw [Nat.testBit_mod_two_pow, decide_eq_true hi, Bool.true_and]
          rw [h1, hmod, Nat.testBit_two_pow_sub_one, decide_eq_true hi]
        rw [hbit, Bool.not_true, Bool.and_false]
      · rw [Nat.testBit_eq_false_of_lt
          (lt_of_lt_of_le hm (Nat.pow_le_pow_right (by norm_num) hi)), Bool.false_and]
    calc Int.land (Int.negSucc n) ↑mask = Int.ofNat (Nat.ldiff mask n) := rfl
      _ = 0 := by rw [hres]; rfl

/-- The integer time-slot loop lands on the slot grid, never moves backwards,
and stops at the first on-grid time. -/
theorem slotUpInt_spec (mask : Nat) : ∀ t : Int, Int.land (slotUpInt mask t) mask = 0
    ∧ t ≤ slotUpInt mask t
    ∧ ∀ u : Int, t ≤ u → Int.land u mask = 0 → slotUpInt mask t ≤ u := by
  have hM2 : (2 : Nat) ≤ 2 ^ (mask + 1) := by
    calc (2 : Nat) = 2 ^ 1 := rfl
      _ ≤ 2 ^ (mask + 1) := Nat.pow_le_pow_right (by norm_num) (by omega)
  have hMpos : (0 : Int) < ((2 ^ (mask + 1) : Nat) : Int) := by positivity
  have key : ∀ (n : Nat) (t : Int), (if Int.land t mask = 0 then 0
      else 2 ^ (mask + 1) - (t % ((2 ^ (mask + 1) : Nat) : Int)).toNat) ≤ n →
      Int.land (slotUpInt mask t) mask = 0
      ∧ t ≤ slotUpInt mask t
      ∧ ∀ u : Int, t ≤ u → Int.land u mask = 0 → slotUpInt mask t ≤ u := by
    intro n
    induction n with
    | zero =>
      intro t hle
      by_cases h : Int.land t mask = 0
      · rw [slotUpInt, if_pos h]
        exact ⟨h, le_refl t, fun u hu _ => hu⟩
      · rw [if_neg h] at hle
        have hr0 : 0 ≤ t % ((2 ^ (mask + 1) : Nat) : Int) := Int.emod_nonneg t (by positivity)
        have hrlt : t % ((2 ^ (mask + 1) : Nat) : Int) < ((2 ^ (mask + 1) : Nat) : Int) :=
          Int.emod_lt_of_pos t hMpos
        omega
    | succ n ih =>
      intro t hle
      by_cases h : Int.land t mask = 0
      · rw [slotUpInt, if_pos h]
        exact ⟨h, le_refl t, fun u hu _ => hu⟩
      · rw [if_neg h] at hle
        have hr0 : 0 ≤ t % ((2 ^ (mask + 1) : Nat) : Int) := Int.emod_nonneg t (by positivity)
        have hrlt : t % ((2 ^ (mask + 1) : Nat) : Int) < ((2 ^ (mask + 1) : Nat) : Int) :=
          Int.emod_lt_of_pos t hMpos
        have hone1 : (1 : Int) % ((2 ^ (mask + 1) : Nat) : Int) = 1 :=
          Int.emod_eq_of_lt (by norm_num) (by exact_mod_cast hM2)
        have hstep : (t + 1) % ((2 ^ (mask + 1) : Nat) : Int)
            = (t % ((2 ^ (mask + 1) : Nat) : Int) + 1) % ((2 ^ (mask + 1) : Nat) : Int) := by
          rw [Int.add_emod, hone1]
        have hmeas : (if Int.land (t + 1) mask = 0 then 0
            else 2 ^ (mask + 1) - ((t + 1) % ((2 ^ (mask + 1) : Nat) : Int)).toNat) ≤ n := by
          by_cases h2 : Int.land (t + 1) mask = 0
          · rw [if_pos h2]
            omega
          · rw [if_neg h2]
            have hwrap : t % ((2 ^ (mask + 1) : Nat) : Int)
                ≠ ((2 ^ (mask + 1) : Nat) : Int) - 1 := by
              intro hw
              apply h2
              apply int_land_eq_zero_of_emod
              rw [hstep, hw]
              have h3 : ((2 ^ (mask + 1) : Nat) : Int) - 1 + 1
                  = ((2 ^ (mask + 1) : Nat) : Int) := by ring
              rw [h3, Int.emod_self]
            have h1 : (t + 1) % ((2 ^ (mask + 1) : Nat) : Int)
                = t % ((2 ^ (mask + 1) : Nat) : Int) + 1 := by
              rw [hstep]
              exact Int.emod_eq_of_lt (by omega) (by omega)
            rw [h1]
            omega
        obtain ⟨ha, hb, hc⟩ := ih (t + 1) hmeas
        rw [slotUpInt, if_neg h]
        refine ⟨ha, le_trans (by omega) hb, fun u hu hmask => ?_⟩
        have hne : u ≠ t := by
          intro he
          rw [he] at hmask
          exact h hmask
        exact hc u (by omega) hmask
  intro t
  exact key (if Int.land t mask = 0 then 0
    else 2 ^ (mask + 1) - (t % ((2 ^ (mask + 1) : Nat) : Int)).toNat) t (le_refl _)

/-- C8: the ASERT reference timestamp: the raw value is the reference block's
parent's time, or the reference block's time minus the target spacing when the
reference block has no parent (it is the genesis); in the proof-of-stake path
the timestamp used is on the stake time-slot grid and is the smallest on-grid
value at or above the raw value, while the proof-of-work path uses the raw
value unrounded. -/
theorem asert_ref_timestamp_rounding (mask : Nat) (raw : Int) (refB refPrev : ChainIdx)
    (spacing : Nat) :
    (Int.land (asertRefTimestamp true mask raw) mask = 0
      ∧ raw ≤ asertRefTimestamp true mask raw
      ∧ ∀ u : Int, raw ≤ u → Int.land u mask = 0 → asertRefTimestamp true mask raw ≤ u)
    ∧ asertRefTimestamp false mask raw = raw
    ∧ (refPrev ≠ [] → asertRefTimestampRaw refB refPrev spacing = (blockTime refPrev : Int))
    ∧ (refPrev = [] → asertRefTimestampRaw refB refPrev spacing
        = (blockTime refB : Int) - spacing) := by
  refine ⟨⟨?_, ?_, ?_⟩, rfl, fun h => ?_, fun h => ?_⟩
  · exact (slotUpInt_spec mask raw).1
  · exact (slotUpInt_spec mask raw).2.1
  · exact (slotUpInt_spec mask raw).2.2
  · rw [asertRefTimestampRaw, if_pos h]
  · rw [asertRefTimestampRaw, if_neg (by simp [h])]

/-- Witness for the reference-timestamp rounding theorem at concrete inputs. -/
theorem asert_ref_timestamp_rounding_witness :
    Int.land (asertRefTimestamp true 0xf 1001) 0xf = 0
    ∧ (1001 : Int) ≤ asertRefTimestamp true 0xf 1001
    ∧ asertRefTimestamp false 0xf 1001 = 1001
    ∧ ([⟨2 <<< 29, 1000, 0x1c0fffff, 7⟩] : ChainIdx) ≠ []
    ∧ asertRefTimestampRaw wchain3 [⟨2 <<< 29, 1000, 0x1c0fffff, 7⟩] 80
        = (blockTime [⟨2 <<< 29, 1000, 0x1c0fffff, 7⟩] : Int)
    ∧ asertRefTimestampRaw wchain3 [] 80 = (blockTime wchain3 : Int) - 80 :=
  ⟨(asert_ref_timestamp_rounding 0xf 1001 wchain3 [] 80).1.1,
   (asert_ref_timestamp_rounding 0xf 1001 wchain3 [] 80).1.2.1,
   (asert_ref_timestamp_rounding 0xf 1001 wchain3 [] 80).2.1,
   by decide,
   (asert_ref_timestamp_rounding 0xf 1001 wchain3
     [⟨2 <<< 29, 1000, 0x1c0fffff, 7⟩] 80).2.2.1 (by decide),
   (asert_ref_timestamp_rounding 0xf 1001 wchain3 [] 80).2.2.2 rfl⟩

/-- C3 counterexample: on a proof-of-work chain whose same-algorithm spacings
all equal the 600-second target spacing exactly, AverageTargetASERT in the
averaging regime returns the rolling window average, which encodes a target
different from both the reference block's target and the previous block's
target. -/
theorem steady_state_drift_counterexample :
    (∀ b ∈ chainC3, getAlgoType b.nVersion = 1)
    ∧ (blockTime (chainC3.drop 0) : Int) - (blockTime (chainC3.drop 1) : Int) = 600
    ∧ (blockTime (chainC3.drop 1) : Int) - (blockTime (chainC3.drop 2) : Int) = 600
    ∧ (blockTime (chainC3.drop 2) : Int) - (blockTime (chainC3.drop 3) : Int) = 600
    ∧ setCompactBase256 (averageTargetASERT chainC3 hdrC3 cparams3)
        ≠ setCompactBase256 (idxBits (asertReferenceBlock false false 1
            (getLastBlockIndexForAlgo chainC3 1)))
    ∧ setCompactBase256 (averageTargetASERT chainC3 hdrC3 cparams3)
        ≠ setCompactBase256 (idxBits (getLastBlockIndexForAlgo chainC3 1)) :=
  ⟨by decide, by decide, by decide, by decide, by decide, by decide⟩

/-- C3 (corrected): the no-drift property at exact schedule holds with the
reference target read as the rolling reference-target selection: WTEMA at exact
previous spacing returns a compact value encoding exactly the previous
same-algorithm block's target (under the no-overflow side conditions); the
ASERT exponential tail at exact schedule returns the rounded encoding of its
reference target argument unchanged, provided the schedule product
spacing * nHeightDiff stays below 2^32 (the uint32 product of pow.cpp line 340
wraps past that, throwing the computation off schedule); and outside the
averaging regime that
argument is exactly the reference block's decoded target, whose rounded
re-encoding decodes back to it. -/
theorem steady_state_no_drift_corrected :
    (∀ (c : ChainIdx) (pblock : Block) (P : Params) (prev pprev : ChainIdx)
        (spacing N T : Nat),
      getAlgoType pblock.nVersion ≠ -1 →
      prev = getLastBlockIndexForAlgo c (getAlgoType pblock.nVersion) →
      pprev = getLastBlockIndexForAlgo prev.tail (getAlgoType pblock.nVersion) →
      spacing = (if isProofOfStake pblock then P.nPowTargetSpacing else 600) →
      N = P.nPowTargetTimespan / (2 * spacing) →
      T = setCompactBase256 (idxBits prev) →
      c ≠ [] → prev.tail ≠ [] → pprev.tail ≠ [] →
      wrap32 ((blockTime prev : Int) - (blockTime pprev : Int)) = (spacing : Int) →
      1 ≤ N * spacing →
      T * (N * spacing) < TWO512 →
      T ≠ 0 →
      T ≤ P.powLimitAt (getAlgoType pblock.nVersion) →
      P.powLimitAt (getAlgoType pblock.nVersion) < TWO256 →
      weightedTargetExponentialMovingAverage c pblock P = getCompactRoundedBase256 T
        ∧ setCompactBase256 (weightedTargetExponentialMovingAverage c pblock P) = T)
    ∧ (∀ (R : Nat) (nTimeDiff : Int) (nHeightDiff spacing divisor limit L : Nat),
      nTimeDiff = (spacing : Int) * (nHeightDiff : Int) →
      spacing * nHeightDiff < 2 ^ 32 →
      R < TWO256 → R ≠ 0 → R ≤ limit →
      asertTail R nTimeDiff nHeightDiff spacing divisor limit L = getCompactRoundedBase256 R)
    ∧ (∀ (fA fP : Bool) (algo : Int) (L : Nat) (fMD : Bool) (N nH nHD : Nat)
        (p r : ChainIdx),
      ¬asertAvgGuard N nH nHD →
      asertRefTargetFree fA fP algo L fMD N nH nHD p r = setCompactBase256 (idxBits r)
        ∧ setCompactBase256 (getCompactRoundedBase256 (setCompactBase256 (idxBits r)))
          = setCompactBase256 (idxBits r)) := by
  refine ⟨?_, ?_, ?_⟩
  · intro c pblock P prev pprev spacing N T halgo hprev hpprev hspacing hN hT h1 h2 h3
      hexact hNs hfit hT0 hTlim hlim256
    subst hprev hpprev hT
    have hsd : (if isProofOfStake pblock then P.nPowTargetSpacing else 10 * 60 : Nat)
        = spacing := by
      rw [hspacing]
    have hNd : P.nPowTargetTimespan / (spacing * 2) = N := by
      rw [hN, Nat.mul_comm]
    have hWT : weightedTargetExponentialMovingAverage c pblock P
        = getCompactRoundedBase256 (setCompactBase256 (idxBits
            (getLastBlockIndexForAlgo c (getAlgoType pblock.nVersion)))) := by
      simp only [weightedTargetExponentialMovingAverage, if_neg halgo, if_neg h1, if_neg h2,
        if_neg h3, hsd, hNd, hexact]
      have hnum2 : ((N : Int) - 1) * (spacing : Int) + (spacing : Int)
          = ((N * spacing : Nat) : Int) := by
        push_cast
        ring
      rw [hnum2, max_eq_left (by exact_mod_cast hNs), Int.toNat_natCast]
      have hdiv : mul512 (setCompactBase256 (idxBits
            (getLastBlockIndexForAlgo c (getAlgoType pblock.nVersion)))) (N * spacing)
          / (N * spacing)
          = setCompactBase256 (idxBits
              (getLastBlockIndexForAlgo c (getAlgoType pblock.nVersion))) := by
        rw [mul512, Nat.mod_eq_of_lt hfit]
        exact Nat.mul_div_cancel _ (by omega)
      rw [hdiv]
      have htrim : trim256 (setCompactBase256 (idxBits
            (getLastBlockIndexForAlgo c (getAlgoType pblock.nVersion))))
          = setCompactBase256 (idxBits
              (getLastBlockIndexForAlgo c (getAlgoType pblock.nVersion))) := by
        rw [trim256]
        exact Nat.mod_eq_of_lt (lt_of_le_of_lt hTlim hlim256)
      rw [htrim]
      rw [if_neg ?hcond]
      case hcond =>
        push_neg
        exact ⟨hTlim, hT0⟩
    exact ⟨hWT, by rw [hWT]; exact decode_rounded_decode _⟩
  · intro R nTimeDiff nHeightDiff spacing divisor limit L hexact hw hR256 hR0 hRlim
    subst hexact
    have hwrap : ((spacing * nHeightDiff % 2 ^ 32 : Nat) : Int)
        = (spacing : Int) * (nHeightDiff : Int) := by
      rw [Nat.mod_eq_of_lt hw]
      push_cast
      ring
    simp only [asertTail, hwrap, sub_self]
    rw [Int.zero_tdiv]
    have hrem : ((if (0 : Int) ≤ 0 then (0 : Int) else -0) % (divisor : Int)).toNat = 0 := by
      norm_num
    rw [hrem]
    simp only [lt_irrefl, and_false, if_false, ne_eq, not_true_eq_false, if_false,
      not_false_eq_true]
    have hm : mul512 R 1 / 1 = R := by
      rw [mul512, Nat.mul_one, Nat.div_one]
      exact Nat.mod_eq_of_lt (lt_trans hR256 (by norm_num [TWO256, TWO512]))
    rw [hm]
    have htrim : trim256 R = R := by
      rw [trim256]
      exact Nat.mod_eq_of_lt hR256
    rw [htrim, if_neg (by push_neg; exact ⟨hRlim, hR0⟩)]
  · intro fA fP algo L fMD N nH nHD p r hg
    refine ⟨?_, decode_rounded_decode _⟩
    simp only [asertRefTargetFree]
    rw [if_neg hg]

/-- Witness for the corrected steady-state theorem at concrete inputs. -/
theorem steady_state_no_drift_corrected_witness :
    (weightedTargetExponentialMovingAverage schain3 shdr mainParams
        = getCompactRoundedBase256 (setCompactBase256 (idxBits
            (getLastBlockIndexForAlgo schain3 1)))
      ∧ setCompactBase256 (weightedTargetExponentialMovingAverage schain3 shdr mainParams)
          = setCompactBase256 (idxBits (getLastBlockIndexForAlgo schain3 1)))
    ∧ asertTail (0xfffff * 2 ^ 200) 2400 4 600 450 (0xffff * 2 ^ 216) 7
        = getCompactRoundedBase256 (0xfffff * 2 ^ 200)
    ∧ ¬asertAvgGuard 5 3 2
    ∧ asertRefTargetFree false false 1 7 false 5 3 2 schain3 schain3
        = setCompactBase256 (idxBits schain3) :=
  ⟨by
    have h := (steady_state_no_drift_corrected).1 schain3 shdr mainParams
      (getLastBlockIndexForAlgo schain3 1)
      (getLastBlockIndexForAlgo (getLastBlockIndexForAlgo schain3 1).tail 1)
      600 36 (setCompactBase256 (idxBits (getLastBlockIndexForAlgo schain3 1)))
      (by decide) (by decide) (by decide) (by decide) (by decide) rfl (by decide) (by decide)
      (by decide) (by decide) (by decide) (by decide) (by decide) (by decide) (by decide)
    exact h,
   (steady_state_no_drift_corrected).2.1 (0xfffff * 2 ^ 200) 2400 4 600 450
     (0xffff * 2 ^ 216) 7 (by decide) (by decide) (by decide) (by decide) (by decide),
   by decide,
   ((steady_state_no_drift_corrected).2.2 false false 1 7 false 5 3 2 schain3 schain3
     (by decide)).1⟩

end XEP
